import Mathlib

/-! Termite: chunked blob transfer and the RPC-backed filesystem.

A shallow embedding of `cba/net.go` (`Store.ServeChunk`, `Client.Fetch`), of
`termite/rpcfs.go` (`RpcFs.FetchHashOnce`, `RpcFs.fetchAttr`, `RpcFs.GetAttr`,
`RpcFs.Access`, `RpcFs.OpenDir`) and of `termite/task.go` (`WorkerTask.fillReply`,
`WorkerTask.savePath`, the visitor methods), followed by the properties established
about them.

Conventions of the embedding.

* Go `int` is 64 bits wide; every integer that occurs is a blob offset or a blob
  offset plus the chunk size, far below `2^63`, so `int` is embedded as `Int`
  without wrap-around.
* A runtime panic (slice bounds out of range, `make` with a negative length) and
  `log.Fatalf` are explicit outcomes: both end the process.
* Disk and transport never fail spontaneously: opening a blob that exists
  succeeds, and a `HashWriter` write stores all the bytes it is given. Memory is
  not exhausted by an allocation that the runtime accepts.
* The digest function is the one fixed by the store's configuration; it is an
  explicit argument `digest` of every operation that hashes.
-/

namespace Termite

/-! ## Data model -/

/-- One byte. -/
abbrev Byte := Fin 256

/-- Byte strings (`[]byte`). -/
abbrev Bytes := List Byte

/-- Digests are Go strings holding the raw hash bytes. -/
abbrev Digest := List Byte

/-- Go `error` values, by their message. -/
abbrev Error := String

/-- The error `io.EOF`. -/
def ioEOF : Error := "EOF"

/-- Modelled from the spec: the content store `cba.Store` (its source file is not
part of the sources at hand). `disk` is the flat directory of blob files, one
`(digest, contents)` pair per file `store/<hex>`; `hot` is the in-memory hot set,
most recently inserted first; `memMaxSize` caps the size of a resident blob and
`hotSetBytes` the aggregate size of the hot set. -/
structure Store where
  memMaxSize : Nat
  hotSetBytes : Nat
  hot : List (Digest × Bytes)
  disk : List (Digest × Bytes)
deriving DecidableEq, Repr

/-- Modelled from the spec: `contents_if_loaded(d)` returns the resident buffer or
nothing and never touches the disk. -/
def Store.ContentsIfLoaded (st : Store) (d : Digest) : Option Bytes :=
  st.hot.lookup d

/-- Modelled from the spec: `path(d)` names the on-disk blob; reading the file at
that path yields the blob, or fails when there is no such file. -/
def Store.readPath (st : Store) (d : Digest) : Option Bytes :=
  st.disk.lookup d

/-- Modelled from the spec: `has(d)` is true iff the blob is either resident or
present on disk. -/
def Store.HasHash (st : Store) (d : Digest) : Bool :=
  (st.ContentsIfLoaded d).isSome || (st.readPath d).isSome

/-- Modelled from the spec: eviction keeps the most recent entries of the hot set
for as long as their sizes fit in the bound. -/
def evict : Nat → List (Digest × Bytes) → List (Digest × Bytes)
  | _, [] => []
  | bound, e :: rest =>
    if e.2.length ≤ bound then e :: evict (bound - e.2.length) rest else []

/-- Modelled from the spec: `save(bytes)` computes the digest, writes the blob to
disk if absent, inserts it into the hot set if `len ≤ MemMaxSize` (enforcing the
hot-set bound), and returns the digest. -/
def Store.Save (digest : Bytes → Digest) (st : Store) (content : Bytes) : Store × Digest :=
  let d := digest content
  let disk := if (st.disk.lookup d).isSome then st.disk else st.disk ++ [(d, content)]
  let hot :=
    if content.length ≤ st.memMaxSize ∧ (st.hot.lookup d).isNone then
      evict st.hotSetBytes ((d, content) :: st.hot)
    else st.hot
  ({ st with hot := hot, disk := disk }, d)

/-- Modelled from the spec: the streaming digest sink `HashWriter`; `temp` is the
contents of its temporary file, which is not a blob of the store. -/
structure HashWriter where
  temp : Bytes
deriving DecidableEq, Repr

/-- Modelled from the spec: a new writer has an empty temporary file. -/
def Store.NewHashWriter (_st : Store) : HashWriter := ⟨[]⟩

/-- Modelled from the spec: `write(bytes) → count` appends to the temporary file
and updates the running digest. -/
def HashWriter.Write (w : HashWriter) (b : Bytes) : HashWriter × Int :=
  (⟨w.temp ++ b⟩, b.length)

/-- Modelled from the spec: `sum()` finalizes the digest and renames the temporary
file to `store/<hex(digest)>`; if the target already exists the temporary file is
unlinked. -/
def HashWriter.Sum (digest : Bytes → Digest) (w : HashWriter) (st : Store) : Store × Digest :=
  let d := digest w.temp
  let disk := if (st.disk.lookup d).isSome then st.disk else st.disk ++ [(d, w.temp)]
  ({ st with disk := disk }, d)

/-! ## The chunk protocol: `cba/net.go` -/

/-- The RPC request `Request{Hash, Start, End}`. -/
structure Request where
  Hash : Digest
  Start : Int
  End : Int
deriving DecidableEq, Repr

/-- The RPC response `Response{Have, Size, Chunk}`. -/
structure Response where
  Have : Bool
  Size : Int
  Chunk : Bytes
deriving DecidableEq, Repr

/-- The zero value of `Response`, which the RPC server hands to the method. -/
def Response.zero : Response := ⟨false, 0, []⟩

/-- The Go slice expression `c[lo:hi]` on a slice whose capacity is `c.length`:
`none` is the runtime panic for bounds out of range. -/
def goSlice (c : Bytes) (lo hi : Int) : Option Bytes :=
  if 0 ≤ lo ∧ lo ≤ hi ∧ hi ≤ c.length then some ((c.drop lo.toNat).take (hi - lo).toNat)
  else none

/-- The call `f.ReadAt(buf, off)` with `len(buf) = len` on a file holding `file`:
the bytes read (`buf[:n]`) and the error, which is `io.EOF` when fewer than `len`
bytes were available and an offset error when `off` is negative. -/
def readAt (file : Bytes) (len : Nat) (off : Int) : Bytes × Option Error :=
  if off < 0 then ([], some "negative offset")
  else
    let data := (file.drop off.toNat).take len
    (data, if data.length < len then some ioEOF else none)

/-- The largest length that `make([]byte, n)` accepts on 64-bit Linux; beyond it the
runtime panics with `makeslice: len out of range`, as it does for a negative one. -/
def maxAlloc : Nat := 2 ^ 48

/-- How a call of `Store.ServeChunk` ends: it returns, having possibly updated the
request and the response it was given, or it panics. -/
inductive Served where
  | done (req : Request) (rep : Response) (err : Option Error)
  | panic
deriving DecidableEq, Repr

/-- The method `Store.ServeChunk(req, rep)` of `cba/net.go`. -/
def Store.ServeChunk (st : Store) (req : Request) (rep : Response) : Served :=
  if !st.HasHash req.Hash then
    .done req { rep with Have := false } none
  else
    let rep := { rep with Have := true }
    match st.ContentsIfLoaded req.Hash with
    | some c =>
      let req := if req.End > c.length then { req with End := c.length } else req
      match goSlice c req.Start req.End with
      | none => .panic
      | some chunk => .done req { rep with Chunk := chunk, Size := c.length } none
    | none =>
      match st.readPath req.Hash with
      | none => .done req rep (some "open: no such file or directory")
      | some file =>
        if req.End - req.Start < 0 ∨ req.End - req.Start > maxAlloc then .panic
        else
          -- `n, err := f.ReadAt(rep.Chunk, ...)`, `rep.Chunk = rep.Chunk[:n]`, `rep.Size = n`
          let (chunk, err) := readAt file (req.End - req.Start).toNat req.Start
          let rep := { rep with Chunk := chunk, Size := chunk.length }
          .done req rep (if err = some ioEOF then none else err)

/-- What `client.Call("Server.ServeChunk", req, rep)` gives the client: an error,
or the response the peer sent. -/
inductive CallResult where
  | error (e : Error)
  | reply (rep : Response)
deriving DecidableEq, Repr

/-- A peer answers the `k`-th call of a fetch (counted from 0) with request `req`. -/
abbrev Peer := Nat → Request → CallResult

/-- The peer that is a `Server` over the store `st`: every call runs
`Store.ServeChunk` on a fresh zero response. An error returned by the method
reaches the caller as the error of `Call`; a panic kills the serving process, and
the caller sees its connection fail. -/
def servePeer (st : Store) : Peer := fun _ req =>
  match st.ServeChunk req Response.zero with
  | .done _ rep none => .reply rep
  | .done _ _ (some e) => .error e
  | .panic => .error "unexpected EOF"

/-- Decoding a received chunk into `rep.Chunk`, which was preset to the client's
buffer: when the chunk fits the buffer's capacity the bytes land in the buffer's
backing array (an empty chunk leaves the buffer as it is), otherwise a new array
of exactly the chunk's length is allocated. The result is the backing array of
`rep.Chunk` after the call; its length is the capacity of `rep.Chunk`. -/
def decodeChunk (buf chunk : Bytes) : Bytes :=
  if chunk.length ≤ buf.length then chunk ++ buf.drop chunk.length else chunk

/-- The contents of the client's buffer `buf` after a chunk was decoded. -/
def bufAfter (buf chunk : Bytes) : Bytes :=
  if chunk.length ≤ buf.length then chunk ++ buf.drop chunk.length else buf

/-- The Go slice expression `s[:n]` on a slice with backing array `arr`: `none` is
the runtime panic for `n` negative or beyond the capacity. -/
def sliceTo (arr : Bytes) (n : Int) : Option Bytes :=
  if 0 ≤ n ∧ n ≤ arr.length then some (arr.take n.toNat) else none

/-- How a call of `Client.Fetch` ends. -/
inductive Exit where
  | returned (ok : Bool) (err : Option Error)
  | fatal
  | panicked
deriving DecidableEq, Repr

/-- The observable result of `Client.Fetch`: how it ended, the client's store at
that moment, and the `ServeChunk` requests it issued, in order. -/
structure FetchResult where
  exit : Exit
  store : Store
  requests : List Request
deriving DecidableEq, Repr

/-- The end of `Client.Fetch`, after the loop: the writer, if one was opened, is
closed and summed; a digest other than `want` is fatal. -/
def fetchFinish (digest : Bytes → Digest) (want : Digest) (st : Store)
    (output : Option HashWriter) (saved : Digest) : Exit × Store :=
  let (st, saved) :=
    match output with
    | some w => w.Sum digest st
    | none => (st, saved)
  if want ≠ saved then (.fatal, st) else (.returned true none, st)

/-- The loop of `Client.Fetch`. Its arguments are the locals of the function: the
store `c.store`, the backing array of `buf`, `output`, `written`, and `calls`, the
number of calls made so far. `fuel` bounds the number of iterations; `none` means
the bound was reached. -/
def fetchLoop (digest : Bytes → Digest) (peer : Peer) (want : Digest) (chunkSize : Nat) :
    Nat → Store → Bytes → Option HashWriter → Int → Nat → Option FetchResult
  | 0, _, _, _, _, _ => none
  | fuel + 1, st, buf, output, written, calls =>
    let req : Request := { Hash := want, Start := written, End := written + chunkSize }
    match peer calls req with
    | .error e => some ⟨.returned false (some e), st, [req]⟩
    | .reply rep =>
      if !rep.Have then some ⟨.returned false none, st, [req]⟩
      else
        match sliceTo (decodeChunk buf rep.Chunk) rep.Size with
        | none => some ⟨.panicked, st, [req]⟩
        | some content =>
          if content.length < chunkSize ∧ written = 0 then
            let (st, saved) := st.Save digest content
            let (exit, st) := fetchFinish digest want st output saved
            some ⟨exit, st, [req]⟩
          else
            let output := match output with
              | some w => w
              | none => st.NewHashWriter
            let (output, n) := output.Write content
            let written := written + n
            if content.length < chunkSize then
              let (exit, st) := fetchFinish digest want st (some output) []
              some ⟨exit, st, [req]⟩
            else
              (fetchLoop digest peer want chunkSize fuel st (bufAfter buf rep.Chunk)
                (some output) written (calls + 1)).map
                fun r => { r with requests := req :: r.requests }

/-- The chunk size `1 << 18` of `Client.Fetch`. -/
def chunkSize : Nat := 1 <<< 18

/-- The method `Client.Fetch(want)` of `cba/net.go`, on the client store `st`
against `peer`, with at most `fuel` round trips. -/
def Client.Fetch (digest : Bytes → Digest) (st : Store) (peer : Peer) (want : Digest)
    (fuel : Nat) : Option FetchResult :=
  fetchLoop digest peer want chunkSize fuel st (List.replicate chunkSize 0) none 0 0

/-! ## Describing a run of the loop -/

/-- The request the loop of `Client.Fetch` issues once `written` bytes have arrived. -/
def reqAt (want : Digest) (chunkSize : Nat) (written : Int) : Request :=
  { Hash := want, Start := written, End := written + chunkSize }

/-- The requests of a fetch that starts at offset `written` and receives the given
chunks one after the other. -/
def requestsFor (want : Digest) (chunkSize : Nat) : Int → List Bytes → List Request
  | _, [] => []
  | written, c :: cs =>
    reqAt want chunkSize written :: requestsFor want chunkSize (written + c.length) cs

/-- From call number `calls` and offset `written` on, the peer answers the requests
of the loop with the given chunks, each with `Have = true` and `Size` the length of
the chunk. -/
def Answers (peer : Peer) (want : Digest) (chunkSize : Nat) : Nat → Int → List Bytes → Prop
  | _, _, [] => True
  | calls, written, c :: cs =>
    peer calls (reqAt want chunkSize written) = .reply ⟨true, c.length, c⟩ ∧
      Answers peer want chunkSize (calls + 1) (written + c.length) cs

/-- The bytes a writer has taken so far; nothing when no writer is open. -/
def writtenSoFar : Option HashWriter → Bytes
  | some w => w.temp
  | none => []

/-- The peer that plays back a fixed sequence of chunks, one per call, each with
`Have = true` and `Size` the length of the chunk; calls beyond the sequence fail. -/
def replyChunks (chunks : List Bytes) : Peer := fun k _ =>
  match chunks.get? k with
  | some c => .reply ⟨true, c.length, c⟩
  | none => .error "connection closed"

/-- The peer that plays back a fixed sequence of responses, one per call, whatever
their fields are; calls beyond the sequence fail. -/
def replyAll (reps : List Response) : Peer := fun k _ =>
  match reps.get? k with
  | some rep => .reply rep
  | none => .error "connection closed"

/-- From call number `calls` on, with the client's buffer `buf` and `written` bytes
taken, the peer answers the requests of the loop with the responses `reps`, each
with `Have = true`, and the client's `rep.Chunk[:rep.Size]` yields the chunks `cs`,
one per response: no `Size` is negative or beyond the capacity of its chunk. -/
def Takes (peer : Peer) (want : Digest) (chunkSize : Nat) :
    Nat → Bytes → Int → List Response → List Bytes → Prop
  | _, _, _, [], [] => True
  | calls, buf, written, rep :: reps, c :: cs =>
    peer calls (reqAt want chunkSize written) = .reply rep ∧ rep.Have = true ∧
      sliceTo (decodeChunk buf rep.Chunk) rep.Size = some c ∧
      Takes peer want chunkSize (calls + 1) (bufAfter buf rep.Chunk) (written + c.length)
        reps cs
  | _, _, _, _, _ => False

/-- The first `n` chunks of `chunkSize` bytes of a blob. -/
def fullChunks (chunkSize : Nat) : Nat → Bytes → List Bytes
  | 0, _ => []
  | n + 1, b => b.take chunkSize :: fullChunks chunkSize n (b.drop chunkSize)

/-- What `Client.Fetch` does with the bytes `b` it received in all: a blob shorter
than one chunk is saved directly, a longer one is committed by the writer; then
the digest is compared with `want`. -/
def received (digest : Bytes → Digest) (want : Digest) (chunkSize : Nat) (st : Store)
    (b : Bytes) : Exit × Store :=
  if b.length < chunkSize then
    fetchFinish digest want (st.Save digest b).1 none (st.Save digest b).2
  else fetchFinish digest want st (some ⟨b⟩) []

/-- A collision-free stand-in for the configured hash, used to run the code on
concrete inputs: every byte string is its own digest. -/
def idDigest : Bytes → Digest := id

/-! ## Concrete inputs -/

/-- The bytes of `"hello"`. -/
def hello : Bytes := [104, 101, 108, 108, 111]

/-- The bytes of `"XXXXX"`. -/
def xxxxx : Bytes := [88, 88, 88, 88, 88]

/-- A blob of `n` zero bytes. -/
def zeros (n : Nat) : Bytes := List.replicate n 0

/-- A store with nothing in it. -/
def freshStore : Store := ⟨1024, 4096, [], []⟩

/-- A store that holds the blob `b` under `d` on disk only. -/
def diskOnly (d : Digest) (b : Bytes) : Store := ⟨0, 0, [], [(d, b)]⟩

/-- A store that holds the blob `b` under `d` on disk and resident in the hot set. -/
def resident (d : Digest) (b : Bytes) : Store := ⟨b.length, b.length, [(d, b)], [(d, b)]⟩

/-! ## The RPC-backed filesystem: `termite/rpcfs.go` -/

/-- The `fuse.Status` values that `rpcfs.go` returns. -/
inductive Status where
  | OK
  | ENOENT
  | EACCES
  | EINVAL
  | EPERM
  | EIO
  | ENOTDIR
deriving DecidableEq, Repr

/-- The fields of `os.FileInfo` that matter here. -/
structure OsFileInfo where
  Mode : Nat
  Size : Nat
deriving DecidableEq, Repr

/-- Modelled from the spec: the record `attr.FileAttr` (package `attr` is not part
of the sources at hand), with the fields `rpcfs.go` reads. `FileInfo` is a pointer
and is nil for a deleted or absent entry; `Hash` is set for a regular file, `Link`
for a symlink, `NameModeMap` for a directory. -/
structure FileAttr where
  Path : String
  FileInfo : Option OsFileInfo
  Hash : Digest
  Link : String
  NameModeMap : List (String × Nat)
deriving DecidableEq, Repr

/-- Modelled from the spec: `Deletion()` holds of the entries of kind deleted or
absent, those without POSIX metadata. -/
def FileAttr.Deletion (a : FileAttr) : Bool := a.FileInfo.isNone

/-- Modelled from the spec: `Status()` is not-found for a deleted or absent entry
and OK for every other one. -/
def FileAttr.Status (a : FileAttr) : Status :=
  if a.Deletion then .ENOENT else .OK

/-- The state of `RpcFs` that the operations below read and write: its `id`, the
content cache `cache`, and the keys of the map `fetching` (each mapped to `true`). -/
structure RpcFs where
  id : String
  cache : Store
  fetching : List Digest
deriving DecidableEq, Repr

/-- Where a caller of `RpcFs.FetchHashOnce` stands: about to lock the mutex, blocked
in `me.cond.Wait()` with the mutex released, inside `me.cache.Fetch` with the mutex
released, returned, or dead in `log.Fatalf`. -/
inductive Pc where
  | entry
  | waiting
  | fetching
  | returned (err : Option Error)
  | fatal
deriving DecidableEq, Repr

/-- What lets a caller of `RpcFs.FetchHashOnce` go on: it acquires the mutex (on
entry, or when `Wait` returns after a broadcast), or its call of `me.cache.Fetch`
returns `(saved, err)` and leaves the cache as `cache`. -/
inductive Event where
  | acquire
  | fetched (cache : Store) (saved : Digest) (err : Option Error)
deriving DecidableEq, Repr

/-- Lines 79 to 86 of `rpcfs.go`, run with the mutex held: the loop test, which
sends the caller to `Wait`; the check that returns nil; else the marking of the
digest, after which the caller unlocks and fetches. -/
def RpcFs.locked (me : RpcFs) (h : Digest) : RpcFs × Pc :=
  if !me.cache.HasHash h && me.fetching.contains h then (me, .waiting)
  else if me.cache.HasHash h then (me, .returned none)
  else ({ me with fetching := h :: me.fetching }, .fetching)

/-- Lines 92 to 99 of `rpcfs.go`: the corruption check, then, with the mutex held
again, the removal of the marker and the broadcast, and the return of `err`. -/
def RpcFs.fetchReturned (me : RpcFs) (h : Digest) (cache : Store) (saved : Digest)
    (err : Option Error) : RpcFs × Pc :=
  if err = none ∧ saved ≠ h then ({ me with cache := cache }, .fatal)
  else ({ me with cache := cache, fetching := me.fetching.filter (fun k => k != h) },
    .returned err)

/-- The method `RpcFs.FetchHashOnce(a)`, one step of one caller at a time: the
state of the filesystem and the position of the caller after the event, or `none`
when the event cannot happen at that position. -/
def RpcFs.FetchHashOnce (me : RpcFs) (a : FileAttr) : Pc → Event → Option (RpcFs × Pc)
  | .entry, .acquire => some (me.locked a.Hash)
  | .waiting, .acquire => some (me.locked a.Hash)
  | .fetching, .fetched cache saved err => some (me.fetchReturned a.Hash cache saved err)
  | _, _ => none

/-- The request `AttrRequest{Name, Origin}`. -/
structure AttrRequest where
  Name : String
  Origin : String
deriving DecidableEq, Repr

/-- The response `AttrResponse{Attrs}`. -/
structure AttrResponse where
  Attrs : List FileAttr
deriving DecidableEq, Repr

/-- The method `RpcFs.fetchAttr(n)`; `call` is `me.client.Call("FsServer.GetAttr", ...)`,
which gives an error or the response. -/
def RpcFs.fetchAttr (me : RpcFs) (call : AttrRequest → Except Error AttrResponse)
    (n : String) : Option FileAttr :=
  match call { Name := n, Origin := me.id } with
  | .error _ => none
  | .ok rep =>
    rep.Attrs.foldl (fun wanted attr => if attr.Path = n then some attr else wanted) none

/-- The miss callback that `NewRpcFs` gives to the attribute cache. -/
def NewRpcFs.missCallback (me : RpcFs) (call : AttrRequest → Except Error AttrResponse) :
    String → Option FileAttr :=
  fun n => me.fetchAttr call n

/-- The access mode `fuse.F_OK`. -/
def F_OK : Nat := 0

/-- The access mode bit `fuse.X_OK`. -/
def X_OK : Nat := 1

/-- The access mode bit `fuse.W_OK`. -/
def W_OK : Nat := 2

/-- The access mode bit `fuse.R_OK`. -/
def R_OK : Nat := 4

/-- The method `RpcFs.GetAttr(name, context)`; `attrGet` is `me.attr.Get`, the
resolution of a path by the attribute cache. The third component is the entry for
which a background `FetchHash` was started, if any. -/
def RpcFs.GetAttr (attrGet : String → Option FileAttr) (name : String) :
    Option OsFileInfo × Status × Option FileAttr :=
  match attrGet name with
  | none => (none, .ENOENT, none)
  | some r => (r.FileInfo, r.Status, if r.Hash ≠ [] then some r else none)

/-- The method `RpcFs.Access(name, mode, context)`. -/
def RpcFs.Access (attrGet : String → Option FileAttr) (name : String) (mode : Nat) : Status :=
  if mode = F_OK then (RpcFs.GetAttr attrGet name).2.1
  else if mode &&& W_OK ≠ 0 then .EACCES
  else .OK

/-- A directory entry `/a` with one child, for concrete runs. -/
def dirA : FileAttr := ⟨"/a", some ⟨0o40755, 4096⟩, [], "", [("b.txt", 0o100644)]⟩

/-- A regular-file entry `/a/b.txt` with the contents `"hello"`, for concrete runs. -/
def fileB : FileAttr := ⟨"/a/b.txt", some ⟨0o100644, 5⟩, idDigest hello, "", []⟩

/-- A filesystem with an empty cache and nothing in flight. -/
def freshFs : RpcFs := ⟨"worker", freshStore, []⟩

/-! ## Directory listing: `RpcFs.OpenDir` -/

/-- The method `IsDirectory()` of `os.FileInfo`: the file-type bits of the mode,
`Mode & S_IFMT`, are `S_IFDIR`. -/
def OsFileInfo.IsDirectory (fi : OsFileInfo) : Bool :=
  fi.Mode &&& 0o170000 == 0o040000

/-- The record `fuse.DirEntry{Name, Mode}`; `Mode` is a `uint32`. -/
structure DirEntry where
  Name : String
  Mode : Nat
deriving DecidableEq, Repr

/-- A Go channel of directory entries: its capacity, the entries buffered in it, in
the order they were sent, and whether it has been closed. -/
structure DirChan where
  cap : Nat
  buf : List DirEntry
  closed : Bool
deriving DecidableEq, Repr

/-- The statement `c <- e` when nobody receives yet: the entry is buffered if there
is room; `none` when the send cannot complete (the buffer is full, so the sender
blocks, or the channel is closed). -/
def DirChan.send (c : DirChan) (e : DirEntry) : Option DirChan :=
  if c.closed then none
  else if c.buf.length < c.cap then some { c with buf := c.buf ++ [e] }
  else none

/-- The loop `for k, mode := range r.NameModeMap` of `RpcFs.OpenDir`, over the
entries of the map in the order the iteration yields them. -/
def openDirLoop : DirChan → List (String × Nat) → Option DirChan
  | c, [] => some c
  | c, (k, mode) :: rest =>
    match c.send { Name := k, Mode := mode % 2 ^ 32 } with
    | none => none
    | some c => openDirLoop c rest

/-- How a call of `RpcFs.OpenDir` ends: it returns a channel (or nil) and a status,
it panics on a nil entry, or it blocks in a send. -/
inductive OpenDirResult where
  | returned (c : Option DirChan) (status : Status)
  | panicked
  | blocked
deriving DecidableEq, Repr

/-- The method `RpcFs.OpenDir(name, context)`; `attrGetDir` is `me.attr.GetDir`, the
resolution of a directory path by the attribute cache, which gives a pointer to an
entry (`none` is nil). -/
def RpcFs.OpenDir (attrGetDir : String → Option FileAttr) (name : String) : OpenDirResult :=
  match attrGetDir name with
  | none => .panicked
  | some r =>
    if r.Deletion then .returned none .ENOENT
    else
      match r.FileInfo with
      | none => .panicked
      | some fi =>
        if !fi.IsDirectory then .returned none .EINVAL
        else
          match openDirLoop ⟨r.NameModeMap.length, [], false⟩ r.NameModeMap with
          | none => .blocked
          | some c => .returned (some { c with closed := true }) .OK

/-! ## Collecting the outputs of a job: `termite/task.go` -/

/-- The constant `_DELETIONS`. -/
def _DELETIONS : String := "DELETIONS"

/-- The call `strings.HasPrefix(s, pre)`. -/
def stringsHasPrefix (s pre : String) : Bool := pre.data.isPrefixOf s.data

/-- The slice `s[n:]` of a string, where `n` is the length of a prefix of `s`. -/
def sliceFrom (s : String) (n : Nat) : String := ⟨s.data.drop n⟩

/-- The conversion `string(contents)` of a byte slice. -/
def goString (b : Bytes) : String := ⟨b.map fun x => Char.ofNat x.val⟩

/-- One step of `filepath.Clean`: an empty element and `.` are dropped, `..` removes
the element before it (at the root it is dropped), every other element is kept. -/
def cleanStep (rooted : Bool) (stack : List String) (e : String) : List String :=
  if e = "" ∨ e = "." then stack
  else if e = ".." then
    match stack.getLast? with
    | some top => if top = ".." then stack ++ [e] else stack.dropLast
    | none => if rooted then stack else stack ++ [e]
  else stack ++ [e]

/-- The function `filepath.Clean`. -/
def filepathClean (s : String) : String :=
  let rooted := s.data.head? == some '/'
  let elems := (s.data.splitOn '/').map String.mk
  let out := (if rooted then "/" else "") ++
    String.intercalate "/" (elems.foldl (cleanStep rooted) [])
  if out = "" then "." else out

/-- The function `filepath.Join`: the elements from the first non-empty one on are
joined with the separator and the result is cleaned. -/
def filepathJoin (elem : List String) : String :=
  match elem.dropWhile (fun e => e == "") with
  | [] => ""
  | es => filepathClean (String.intercalate "/" es)

/-- The file-type mask of a mode: `Mode &^ 07777`. -/
def fileType (mode : Nat) : Nat := mode / 0o10000 * 0o10000

/-- The file type `syscall.S_IFREG`. -/
def S_IFREG : Nat := 0o100000

/-- The file type `syscall.S_IFLNK`. -/
def S_IFLNK : Nat := 0o120000

/-- One file, directory or symlink of the worker's local file system: its clean
absolute path, what `Lstat` says of it, the contents if it is a regular file and
the target if it is a symlink. -/
structure FsEntry where
  path : String
  info : OsFileInfo
  data : Bytes
  link : String
deriving DecidableEq, Repr

/-- The worker's local file system: its entries, every directory before what is in
it. -/
abbrev FileSystem := List FsEntry

/-- The call `os.Lstat(path)`; `none` is the error for a path that does not exist. -/
def FileSystem.lstat (fs : FileSystem) (path : String) : Option FsEntry :=
  fs.find? (fun e => e.path == path)

/-- The call `ioutil.ReadFile(path)`: the contents of a regular file, or an error. -/
def FileSystem.readFile (fs : FileSystem) (path : String) : Except Error Bytes :=
  match fs.lstat path with
  | none => .error ("open " ++ path ++ ": no such file or directory")
  | some e =>
    if fileType e.info.Mode = S_IFREG then .ok e.data
    else .error ("read " ++ path ++ ": is a directory")

/-- The call `os.Remove(path)`: the file system without the entry, or an error when
there is no such entry or when it is a directory that is not empty. -/
def FileSystem.remove (fs : FileSystem) (path : String) : Except Error FileSystem :=
  match fs.lstat path with
  | none => .error ("remove " ++ path ++ ": no such file or directory")
  | some _ =>
    if fs.any (fun e => stringsHasPrefix e.path (path ++ "/")) then
      .error ("remove " ++ path ++ ": directory not empty")
    else .ok (fs.filter (fun e => e.path != path))

/-- The order of `sort.Strings` on two strings. -/
def charsLe : List Char → List Char → Bool
  | [], _ => true
  | _ :: _, [] => false
  | a :: as, b :: bs =>
    if a.toNat < b.toNat then true
    else if a.toNat = b.toNat then charsLe as bs
    else false

/-- Insertion of a name into a sorted list of names. -/
def insertName (n : String) : List String → List String
  | [] => [n]
  | m :: ms => if charsLe n.data m.data then n :: m :: ms else m :: insertName n ms

/-- The names in the directory `dir`, sorted: what `Readdirnames` and `sort.Strings`
give. -/
def FileSystem.names (fs : FileSystem) (dir : String) : List String :=
  (fs.filterMap (fun e =>
    if stringsHasPrefix e.path (dir ++ "/") then
      let n := sliceFrom e.path (dir ++ "/").length
      if n ≠ "" ∧ '/' ∉ n.data then some n else none
    else none)).foldr insertName []

/-- The call `filepath.Glob(dir + "/*")` for a `dir` without pattern characters: if
`dir` is a directory, every name in it, joined to `dir`, in name order; the pattern
is well formed, so the error is nil. -/
def FileSystem.globStar (fs : FileSystem) (dir : String) : List String :=
  match fs.lstat dir with
  | none => []
  | some d =>
    if d.info.IsDirectory then (fs.names dir).map (fun n => filepathJoin [dir, n]) else []

/-- The record `termite.FileInfo` of a reply, with the fields `task.go` sets: the
embedded `os.FileInfo`, `Delete`, `Path`, `Hash` and `LinkContent`. -/
structure ReplyFileInfo where
  FileInfo : OsFileInfo
  Delete : Bool
  Path : String
  Hash : Digest
  LinkContent : String
deriving DecidableEq, Repr

/-- What `WorkerTask` works on: `me.fuseFs.rwDir`, the list `me.WorkReply.Files`, the
content cache of the daemon, and the local file system. -/
structure WorkerTask where
  rwDir : String
  Files : List ReplyFileInfo
  contentCache : Store
  fs : FileSystem
deriving DecidableEq, Repr

/-- Modelled from the spec: `save_path(path)` of the content store computes the
digest of the file and puts the file into the store under its digest, if absent;
the source path is left alone. -/
def Store.SavePath (digest : Bytes → Digest) (st : Store) (contents : Bytes) : Store × Digest :=
  let d := digest contents
  let disk := if (st.disk.lookup d).isSome then st.disk else st.disk ++ [(d, contents)]
  ({ st with disk := disk }, d)

/-- The method `WorkerTask.savePath(path, fi)`. -/
def WorkerTask.savePath (me : WorkerTask) (path : String) (fi : ReplyFileInfo) : WorkerTask :=
  if !stringsHasPrefix path me.rwDir then me
  else
    let fi := { fi with Path := sliceFrom path me.rwDir.length }
    if fi.Path = "/" ++ _DELETIONS then me
    else { me with Files := me.Files ++ [fi] }

/-- The method `WorkerTask.VisitFile(path, osInfo)`; `none` is `log.Fatal`. The
result of the final `os.Remove(path)` is not looked at. -/
def WorkerTask.VisitFile (digest : Bytes → Digest) (me : WorkerTask) (e : FsEntry) :
    Option WorkerTask :=
  let fi : ReplyFileInfo := ⟨e.info, false, "", [], ""⟩
  let saved : Option (WorkerTask × ReplyFileInfo) :=
    if fileType e.info.Mode = S_IFREG then
      let (cache, h) := me.contentCache.SavePath digest e.data
      some ({ me with contentCache := cache }, { fi with Hash := h })
    else if fileType e.info.Mode = S_IFLNK then
      some (me, { fi with LinkContent := e.link })
    else none
  match saved with
  | none => none
  | some (me, fi) =>
    let me := me.savePath e.path fi
    match me.fs.remove e.path with
    | .ok fs => some { me with fs := fs }
    | .error _ => some me

/-- The method `WorkerTask.VisitDir(path, osInfo)`, which always returns true. -/
def WorkerTask.VisitDir (me : WorkerTask) (e : FsEntry) : WorkerTask :=
  me.savePath e.path ⟨e.info, false, "", [], ""⟩

/-- The visits of `filepath.Walk`, one entry after the other. -/
def WorkerTask.visitAll (digest : Bytes → Digest) : WorkerTask → List FsEntry → Option WorkerTask
  | me, [] => some me
  | me, e :: rest =>
    if e.info.IsDirectory then visitAll digest (me.VisitDir e) rest
    else
      match me.VisitFile digest e with
      | none => none
      | some me => visitAll digest me rest

/-- The call `filepath.Walk(root, me, nil)`: if `root` exists, it and everything
below it is visited, every directory before what is in it; `none` is `log.Fatal`
in a visit. -/
def WorkerTask.Walk (digest : Bytes → Digest) (me : WorkerTask) (root : String) :
    Option WorkerTask :=
  match me.fs.lstat root with
  | none => some me
  | some _ =>
    me.visitAll digest
      (me.fs.filter (fun e => e.path == root || stringsHasPrefix e.path (root ++ "/")))

/-- The loop `for _, m := range matches` of `WorkerTask.fillReply`: the error it
returns with, if any, and the task at that moment. -/
def WorkerTask.deletionLoop (dir : String) : WorkerTask → List String → Option Error × WorkerTask
  | me, [] => (none, me)
  | me, m :: rest =>
    let fullPath := filepathJoin [dir, m]
    match me.fs.readFile fullPath with
    | .error err => (some err, me)
    | .ok contents =>
      let deleted : ReplyFileInfo :=
        { FileInfo := ⟨0, 0⟩, Delete := true, Path := goString contents, Hash := [],
          LinkContent := "" }
      let me := { me with Files := me.Files ++ [deleted] }
      match me.fs.remove fullPath with
      | .error err => (some err, me)
      | .ok fs => deletionLoop dir { me with fs := fs } rest

/-- How a call of `WorkerTask.fillReply` ends: it returns an error or nil, or the
process dies in `log.Fatal`. -/
inductive FillResult where
  | returned (err : Option Error) (me : WorkerTask)
  | fatal
deriving DecidableEq, Repr

/-- The method `WorkerTask.fillReply()`. -/
def WorkerTask.fillReply (digest : Bytes → Digest) (me : WorkerTask) : FillResult :=
  let dir := filepathJoin [me.rwDir, _DELETIONS]
  let afterLoop : Option Error × WorkerTask :=
    match me.fs.lstat dir with
    | some _ => WorkerTask.deletionLoop dir me (me.fs.globStar dir)
    | none => (none, me)
  match afterLoop with
  | (some err, me) => .returned (some err) me
  | (none, me) =>
    match me.Walk digest me.rwDir with
    | none => .fatal
    | some me => .returned none me

/-- The bytes of `"/wd/output.txt"`. -/
def outputTxtPath : Bytes := [47, 119, 100, 47, 111, 117, 116, 112, 117, 116, 46, 116, 120, 116]

/-- The overlay of a job that ran `rm output.txt`: the directory `DELETIONS` holds
one marker file, whose contents name the deleted file. -/
def overlayAfterRm : FileSystem :=
  [⟨"/tmp/rw", ⟨0o40700, 4096⟩, [], ""⟩,
   ⟨"/tmp/rw/DELETIONS", ⟨0o40700, 4096⟩, [], ""⟩,
   ⟨"/tmp/rw/DELETIONS/0a1b", ⟨0o100644, 14⟩, outputTxtPath, ""⟩]

/-- The overlay of a job that wrote `"hello"` to `/wd/output.txt` and deleted
nothing. -/
def overlayAfterTee : FileSystem :=
  [⟨"/tmp/rw", ⟨0o40700, 4096⟩, [], ""⟩,
   ⟨"/tmp/rw/DELETIONS", ⟨0o40700, 4096⟩, [], ""⟩,
   ⟨"/tmp/rw/wd", ⟨0o40755, 4096⟩, [], ""⟩,
   ⟨"/tmp/rw/wd/output.txt", ⟨0o100644, 5⟩, hello, ""⟩]

end Termite

namespace Termite

/-! ## Properties of `Store.ServeChunk` -/

theorem hasHash_of_disk {st : Store} {d : Digest} {b : Bytes}
    (hdisk : st.readPath d = some b) : st.HasHash d = true := by
  simp [Store.HasHash, hdisk]

theorem hasHash_of_hot {st : Store} {d : Digest} {b : Bytes}
    (hhot : st.ContentsIfLoaded d = some b) : st.HasHash d = true := by
  simp [Store.HasHash, hhot]

/-- On the disk path a request with `0 ≤ Start ≤ End`, for a range that can be
allocated, is answered with the bytes of the file from `Start` on, at most
`End - Start` of them, and `Size` is their number. -/
theorem serveChunk_disk {st : Store} {req : Request} (rep : Response) {b : Bytes}
    (hhot : st.ContentsIfLoaded req.Hash = none) (hdisk : st.readPath req.Hash = some b)
    (h0 : 0 ≤ req.Start) (hle : req.Start ≤ req.End)
    (hmax : req.End - req.Start ≤ maxAlloc) :
    st.ServeChunk req rep =
      .done req ⟨true, (((b.drop req.Start.toNat).take (req.End - req.Start).toNat).length : Nat),
        (b.drop req.Start.toNat).take (req.End - req.Start).toNat⟩ none := by
  have hneg : ¬ (req.End - req.Start < 0 ∨ req.End - req.Start > maxAlloc) := by omega
  have hoff : ¬ req.Start < 0 := by omega
  simp only [Store.ServeChunk, hasHash_of_disk hdisk, hhot, hdisk, readAt, hneg, hoff]
  by_cases hlt : ((b.drop req.Start.toNat).take (req.End - req.Start).toNat).length
      < (req.End - req.Start).toNat
  · simp [hlt]
  · simp [hlt]

/-- On the hot path a request with `0 ≤ Start ≤ End` and `Start ≤ len(c)` is
answered with the bytes `[Start, min(End, len(c)))` and `Size = len(c)`. -/
theorem serveChunk_hot {st : Store} {req : Request} (rep : Response) {c : Bytes}
    (hhot : st.ContentsIfLoaded req.Hash = some c)
    (h0 : 0 ≤ req.Start) (hle : req.Start ≤ req.End) (hlen : req.Start ≤ c.length) :
    st.ServeChunk req rep =
      .done { req with End := min req.End c.length } ⟨true, c.length,
        (c.drop req.Start.toNat).take (min req.End c.length - req.Start).toNat⟩ none := by
  simp only [Store.ServeChunk, hasHash_of_hot hhot, hhot]
  by_cases hgt : req.End > c.length
  · have hmin : min req.End (c.length : Int) = c.length := by omega
    have hs : 0 ≤ req.Start ∧ req.Start ≤ (c.length : Int) ∧ (c.length : Int) ≤ c.length := by
      omega
    simp [hgt, goSlice, hs, hmin]
  · have hmin : min req.End (c.length : Int) = req.End := by omega
    have hs : 0 ≤ req.Start ∧ req.Start ≤ req.End ∧ req.End ≤ c.length := by omega
    simp [hgt, goSlice, hs, hmin]

/-- On the hot path a request that starts beyond the end of the blob panics. -/
theorem serveChunk_hot_panic {st : Store} {req : Request} (rep : Response) {c : Bytes}
    (hhot : st.ContentsIfLoaded req.Hash = some c) (hlen : (c.length : Int) < req.Start) :
    st.ServeChunk req rep = .panic := by
  simp only [Store.ServeChunk, hasHash_of_hot hhot, hhot]
  by_cases hgt : req.End > c.length
  · have hs : ¬ (0 ≤ req.Start ∧ req.Start ≤ (c.length : Int)) := by omega
    simp [hgt, goSlice, hs]
  · have hs : ¬ (0 ≤ req.Start ∧ req.Start ≤ req.End ∧ req.End ≤ c.length) := by omega
    simp [hgt, goSlice, hs]

/-! ## Properties of the loop of `Client.Fetch` -/

theorem sliceTo_decodeChunk (buf c : Bytes) :
    sliceTo (decodeChunk buf c) (c.length : Nat) = some c := by
  unfold sliceTo decodeChunk
  by_cases h : c.length ≤ buf.length
  · simp [h]
  · simp [h]

theorem length_bufAfter (buf c : Bytes) : (bufAfter buf c).length = buf.length := by
  unfold bufAfter
  by_cases h : c.length ≤ buf.length
  · simp [h]
  · simp [h]

/-- The run of the loop against a peer that answers with full chunks `full` and
then the short chunk `last`: an only chunk that is short is saved directly, every
other run goes through the writer, which ends up holding all the bytes. -/
theorem fetchLoop_run (digest : Bytes → Digest) (peer : Peer) (want : Digest) (C : Nat)
    (last : Bytes) (hlast : last.length < C) :
    ∀ (full : List Bytes) (fuel : Nat) (st : Store) (buf : Bytes) (output : Option HashWriter)
      (written : Int) (calls : Nat),
      (∀ c ∈ full, C ≤ c.length) → 0 ≤ written →
      Answers peer want C calls written (full ++ [last]) → full.length < fuel →
      fetchLoop digest peer want C fuel st buf output written calls =
        some (if full = [] ∧ written = 0 then
            ⟨(fetchFinish digest want (st.Save digest last).1 output (st.Save digest last).2).1,
             (fetchFinish digest want (st.Save digest last).1 output (st.Save digest last).2).2,
             requestsFor want C written (full ++ [last])⟩
          else
            ⟨(fetchFinish digest want st
                (some ⟨writtenSoFar output ++ full.flatten ++ last⟩) []).1,
             (fetchFinish digest want st
                (some ⟨writtenSoFar output ++ full.flatten ++ last⟩) []).2,
             requestsFor want C written (full ++ [last])⟩) := by
  intro full
  induction full with
  | nil =>
    intro fuel st buf output written calls _ hw hans hfuel
    obtain ⟨fuel, rfl⟩ : ∃ f, fuel = f + 1 := ⟨fuel - 1, by simp at hfuel; omega⟩
    simp only [List.nil_append, Answers] at hans
    have hpeer := hans.1
    simp only [reqAt] at hpeer
    by_cases hw0 : written = 0
    · subst hw0
      simp only [zero_add] at hpeer
      cases output <;>
        simp [fetchLoop, hpeer, sliceTo_decodeChunk, hlast, requestsFor, reqAt]
    · cases output <;>
        simp [fetchLoop, hpeer, sliceTo_decodeChunk, hlast, hw0, requestsFor, reqAt,
          HashWriter.Write, Store.NewHashWriter, writtenSoFar]
  | cons c cs ih =>
    intro fuel st buf output written calls hfull hw hans hfuel
    obtain ⟨fuel, rfl⟩ : ∃ f, fuel = f + 1 := ⟨fuel - 1, by simp at hfuel; omega⟩
    simp only [List.cons_append, Answers] at hans
    have hpeer := hans.1
    simp only [reqAt] at hpeer
    have hc : C ≤ c.length := hfull c (List.mem_cons_self _ _)
    have hnlt : ¬ c.length < C := by omega
    have hw1 : 0 ≤ written + (c.length : Int) := by omega
    have hw2 : ¬ (written + (c.length : Int) = 0) := by omega
    have hrec := ih fuel st (bufAfter buf c)
      (some ⟨writtenSoFar output ++ c⟩) (written + c.length) (calls + 1)
      (fun x hx => hfull x (List.mem_cons_of_mem _ hx)) hw1 hans.2
      (by simp at hfuel; omega)
    simp only [hw2, and_false, if_false] at hrec
    cases output <;>
      simp [fetchLoop, hpeer, sliceTo_decodeChunk, hnlt, HashWriter.Write,
        Store.NewHashWriter, writtenSoFar, requestsFor, reqAt, List.append_assoc] at hrec ⊢ <;>
      simp [hrec]

theorem answers_replyChunks (want : Digest) (C : Nat) :
    ∀ (cs pre : List Bytes) (written : Int),
      Answers (replyChunks (pre ++ cs)) want C pre.length written cs := by
  intro cs
  induction cs with
  | nil => intro pre written; trivial
  | cons c cs ih =>
    intro pre written
    refine ⟨?_, ?_⟩
    · have hget : (pre ++ c :: cs).get? pre.length = some c := by
        rw [List.get?_eq_getElem?, List.getElem?_append_right (Nat.le_refl _)]
        simp
      simp only [replyChunks, hget]
    · have h := ih (pre ++ [c]) (written + c.length)
      simpa using h

theorem flatten_fullChunks (C : Nat) :
    ∀ (n : Nat) (b : Bytes), (fullChunks C n b).flatten ++ b.drop (n * C) = b := by
  intro n
  induction n with
  | zero => intro b; simp [fullChunks]
  | succ n ih =>
    intro b
    have h := ih (b.drop C)
    rw [List.drop_drop] at h
    have e : (n + 1) * C = C + n * C := by ring
    simp only [fullChunks, List.flatten_cons, List.append_assoc, e, h, List.take_append_drop]

theorem length_fullChunks (C : Nat) :
    ∀ (n : Nat) (b : Bytes), n * C ≤ b.length → ∀ c ∈ fullChunks C n b, c.length = C := by
  intro n
  induction n with
  | zero => intro b _ c hc; simp [fullChunks] at hc
  | succ n ih =>
    intro b hb c hc
    have e : (n + 1) * C = n * C + C := by ring
    simp only [fullChunks, List.mem_cons] at hc
    rcases hc with rfl | hc
    · simp; omega
    · exact ih (b.drop C) (by simp; omega) c hc

theorem length_fullChunks_list (C : Nat) :
    ∀ (n : Nat) (b : Bytes), (fullChunks C n b).length = n := by
  intro n
  induction n with
  | zero => intro b; rfl
  | succ n ih => intro b; simp [fullChunks, ih]

theorem requestsFor_fullChunks (want : Digest) (C : Nat) (l : Bytes) :
    ∀ (n : Nat) (b : Bytes) (w : Nat), n * C ≤ b.length →
      requestsFor want C (w : Int) (fullChunks C n b ++ [l]) =
        (List.range (n + 1)).map (fun i => reqAt want C ((w + i * C : Nat) : Int)) := by
  intro n
  induction n with
  | zero => intro b w _; simp [fullChunks, requestsFor, List.range_succ]
  | succ n ih =>
    intro b w hb
    have e : (n + 1) * C = n * C + C := by ring
    have hlen : (b.take C).length = C := by simp; omega
    have h := ih (b.drop C) (w + C) (by simp; omega)
    rw [List.range_succ_eq_map]
    simp only [fullChunks, List.cons_append, requestsFor, hlen, List.map_cons, List.map_map,
      Nat.zero_mul, Nat.add_zero, List.append_eq]
    have hcast : ((w : Int) + (C : Int)) = ((w + C : Nat) : Int) := by push_cast; ring
    rw [hcast, h]
    congr 1
    apply List.map_congr_left
    intro i _
    simp only [Function.comp]
    congr 2
    rw [Nat.succ_eq_add_one]
    ring

/-- The server over a store that holds `b` for `want` on disk only answers the
request at offset `w` with the next bytes of `b`, at most `C` of them. -/
theorem servePeer_disk {server : Store} {want : Digest} {b : Bytes} (C w k : Nat)
    (hC : C ≤ maxAlloc)
    (hhot : server.ContentsIfLoaded want = none) (hdisk : server.readPath want = some b) :
    servePeer server k (reqAt want C (w : Int)) =
      .reply ⟨true, (((b.drop w).take C).length : Nat), (b.drop w).take C⟩ := by
  have h := @serveChunk_disk server (reqAt want C (w : Int)) Response.zero b hhot hdisk
    (by simp [reqAt]) (by simp [reqAt]) (by simp only [reqAt]; omega)
  simp only [servePeer, h]
  simp [reqAt]

theorem answers_disk {server : Store} {want : Digest} {b : Bytes} (C : Nat)
    (hC : C ≤ maxAlloc)
    (hhot : server.ContentsIfLoaded want = none) (hdisk : server.readPath want = some b) :
    ∀ (n w k : Nat), w + n * C ≤ b.length → b.length - (w + n * C) < C →
      Answers (servePeer server) want C k (w : Int)
        (fullChunks C n (b.drop w) ++ [b.drop (w + n * C)]) := by
  intro n
  induction n with
  | zero =>
    intro w k hw hlt
    simp only [fullChunks, List.nil_append, Answers, Nat.zero_mul, Nat.add_zero, and_true]
    rw [servePeer_disk C w k hC hhot hdisk]
    have : (b.drop w).take C = b.drop w := List.take_of_length_le (by simp; omega)
    rw [this]
  | succ n ih =>
    intro w k hw hlt
    have e : (n + 1) * C = n * C + C := by ring
    have hlen : ((b.drop w).take C).length = C := by simp; omega
    have h := ih (w + C) (k + 1) (by omega) (by omega)
    have e2 : w + C + n * C = w + (n + 1) * C := by omega
    have hcast : ((w : Int) + (C : Int)) = ((w + C : Nat) : Int) := by push_cast; ring
    simp only [fullChunks, List.cons_append, Answers, List.append_eq]
    refine ⟨?_, ?_⟩
    · rw [servePeer_disk C w k hC hhot hdisk]
    · rw [hlen, hcast, List.drop_drop, ← e2]
      exact h

/-- The loop against the server of a store that holds `b` for `want` on disk only:
all of `b` arrives, in `len(b) / C + 1` round trips. -/
theorem fetchLoop_disk (digest : Bytes → Digest) {server : Store} {want : Digest} {b : Bytes}
    (C : Nat) (hC : 0 < C) (hmax : C ≤ maxAlloc)
    (hhot : server.ContentsIfLoaded want = none) (hdisk : server.readPath want = some b)
    (st : Store) (buf : Bytes) (fuel : Nat) (hfuel : b.length / C < fuel) :
    fetchLoop digest (servePeer server) want C fuel st buf none 0 0 =
      some ⟨(received digest want C st b).1, (received digest want C st b).2,
        (List.range (b.length / C + 1)).map (fun i => reqAt want C ((i * C : Nat) : Int))⟩ := by
  have hn : b.length / C * C ≤ b.length := Nat.div_mul_le_self _ _
  have hmod : b.length - b.length / C * C < C := by
    have h1 := Nat.mod_lt b.length hC
    have h2 := Nat.div_add_mod b.length C
    have h3 : C * (b.length / C) = b.length / C * C := Nat.mul_comm _ _
    omega
  have hans := answers_disk C hmax hhot hdisk (b.length / C) 0 0 (by omega) (by omega)
  simp only [List.drop_zero, Nat.zero_add, Nat.cast_zero] at hans
  have hrun := fetchLoop_run digest (servePeer server) want C (b.drop (b.length / C * C))
    (by rw [List.length_drop]; exact hmod) (fullChunks C (b.length / C) b) fuel st buf none 0 0
    (fun c hc => le_of_eq (length_fullChunks C _ b hn c hc).symm) (le_refl _) hans
    (by rw [length_fullChunks_list]; exact hfuel)
  have hreq := requestsFor_fullChunks want C (b.drop (b.length / C * C)) (b.length / C) b 0 hn
  simp only [Nat.zero_add, Nat.cast_zero] at hreq
  rw [hrun, hreq]
  by_cases hsmall : b.length < C
  · have hz : b.length / C = 0 := Nat.div_eq_of_lt hsmall
    simp [received, hsmall, hz, fullChunks]
  · have hz : b.length / C ≠ 0 := by
      intro h0
      have := (Nat.div_eq_zero_iff hC).1 h0
      omega
    obtain ⟨m, hm⟩ : ∃ m, b.length / C = m + 1 := ⟨b.length / C - 1, (Nat.sub_add_cancel (Nat.pos_of_ne_zero hz)).symm⟩
    have hfl := flatten_fullChunks C (b.length / C) b
    have hne : fullChunks C (b.length / C) b ≠ [] := by
      rw [hm]; simp [fullChunks]
    simp only [received, hsmall, hne, false_and, if_false, writtenSoFar, List.nil_append, hfl]

/-- The server over a store that has `b` resident for `want` answers the first
request of a fetch with all of `b` when `b` is shorter than a chunk. -/
theorem servePeer_hot_small {server : Store} {want : Digest} {b : Bytes} (C k : Nat)
    (hhot : server.ContentsIfLoaded want = some b) (hlen : b.length < C) :
    servePeer server k (reqAt want C 0) = .reply ⟨true, b.length, b⟩ := by
  have h := @serveChunk_hot server (reqAt want C 0) Response.zero b hhot
    (by simp [reqAt]) (by simp [reqAt]) (by simp [reqAt])
  simp only [servePeer, h]
  have hmin : min ((0 : Int) + (C : Int)) (b.length : Int) = b.length := by omega
  simp [reqAt, hmin]
  omega

/-- The loop against the server of a store that has `b` resident for `want`, with
`b` shorter than a chunk: all of `b` arrives in one round trip. -/
theorem fetchLoop_hot_small (digest : Bytes → Digest) {server : Store} {want : Digest}
    {b : Bytes} (C : Nat)
    (hhot : server.ContentsIfLoaded want = some b) (hlen : b.length < C)
    (st : Store) (buf : Bytes) (fuel : Nat) (hfuel : 0 < fuel) :
    fetchLoop digest (servePeer server) want C fuel st buf none 0 0 =
      some ⟨(received digest want C st b).1, (received digest want C st b).2,
        [reqAt want C 0]⟩ := by
  have hans : Answers (servePeer server) want C 0 0 ([] ++ [b]) := by
    simp only [List.nil_append, Answers, and_true]
    exact servePeer_hot_small C 0 hhot hlen
  have hrun := fetchLoop_run digest (servePeer server) want C b hlen [] fuel st buf none 0 0
    (by simp) (le_refl _) hans (by simpa using hfuel)
  rw [hrun]
  simp [received, hlen, requestsFor]

/-! ## Properties of the store operations -/

theorem lookup_append_single (l : List (Digest × Bytes)) (d k : Digest) (c : Bytes) :
    (l ++ [(d, c)]).lookup k = (l.lookup k).or (if k = d then some c else none) := by
  rw [List.lookup_append]
  congr 1
  by_cases h : k = d
  · subst h; simp
  · have hb : (k == d) = false := by simpa using h
    simp [List.lookup_cons, h, hb]

theorem hasHash_eq_false_iff (st : Store) (d : Digest) :
    st.HasHash d = false ↔ st.ContentsIfLoaded d = none ∧ st.readPath d = none := by
  unfold Store.HasHash
  cases st.ContentsIfLoaded d <;> cases st.readPath d <;> simp

theorem lookup_evict_none (k : Digest) :
    ∀ (l : List (Digest × Bytes)) (bound : Nat), l.lookup k = none →
      (evict bound l).lookup k = none := by
  intro l
  induction l with
  | nil => intro bound _; simp [evict]
  | cons e rest ih =>
    intro bound h
    obtain ⟨d, c⟩ := e
    rw [List.lookup_cons] at h
    by_cases hk : (k == d) = true
    · simp [hk] at h
    · simp only [Bool.not_eq_true] at hk
      simp only [hk] at h
      by_cases hfit : c.length ≤ bound
      · simp only [evict, hfit, if_true, List.lookup_cons, hk]
        exact ih _ h
      · simp [evict, hfit]

theorem readPath_save_other (digest : Bytes → Digest) (st : Store) (c : Bytes) (want : Digest)
    (hne : want ≠ digest c) : (st.Save digest c).1.readPath want = st.readPath want := by
  unfold Store.Save Store.readPath
  by_cases h : (st.disk.lookup (digest c)).isSome
  · simp [h]
  · simp only [h, if_false, Bool.false_eq_true]
    rw [lookup_append_single]
    simp [hne]

theorem readPath_save_self (digest : Bytes → Digest) (st : Store) (c : Bytes)
    (habs : st.readPath (digest c) = none) :
    (st.Save digest c).1.readPath (digest c) = some c := by
  unfold Store.readPath at habs
  unfold Store.Save Store.readPath
  simp only [habs, Option.isSome_none, Bool.false_eq_true, if_false]
  rw [lookup_append_single]
  simp [habs]

theorem hasHash_save_other (digest : Bytes → Digest) (st : Store) (c : Bytes) (want : Digest)
    (hne : want ≠ digest c) (habs : st.HasHash want = false) :
    (st.Save digest c).1.HasHash want = false := by
  have hd := readPath_save_other digest st c want hne
  rw [hasHash_eq_false_iff] at habs ⊢
  refine ⟨?_, by rw [hd]; exact habs.2⟩
  have hhot : st.hot.lookup want = none := habs.1
  unfold Store.Save Store.ContentsIfLoaded
  by_cases h : c.length ≤ st.memMaxSize ∧ (st.hot.lookup (digest c)).isNone
  · simp only [h, and_self, if_true]
    apply lookup_evict_none
    rw [List.lookup_cons]
    have : (want == digest c) = false := by simpa using hne
    simp [this, hhot]
  · simp only [h, if_false]
    exact hhot

theorem readPath_sum_other (digest : Bytes → Digest) (st : Store) (w : HashWriter)
    (want : Digest) (hne : want ≠ digest w.temp) :
    (w.Sum digest st).1.readPath want = st.readPath want := by
  unfold HashWriter.Sum Store.readPath
  by_cases h : (st.disk.lookup (digest w.temp)).isSome
  · simp [h]
  · simp only [h, if_false, Bool.false_eq_true]
    rw [lookup_append_single]
    simp [hne]

theorem readPath_sum_self (digest : Bytes → Digest) (st : Store) (w : HashWriter)
    (habs : st.readPath (digest w.temp) = none) :
    (w.Sum digest st).1.readPath (digest w.temp) = some w.temp := by
  unfold Store.readPath at habs
  unfold HashWriter.Sum Store.readPath
  simp only [habs, Option.isSome_none, Bool.false_eq_true, if_false]
  rw [lookup_append_single]
  simp [habs]

theorem hasHash_sum_other (digest : Bytes → Digest) (st : Store) (w : HashWriter)
    (want : Digest) (hne : want ≠ digest w.temp) (habs : st.HasHash want = false) :
    (w.Sum digest st).1.HasHash want = false := by
  have hd := readPath_sum_other digest st w want hne
  rw [hasHash_eq_false_iff] at habs ⊢
  exact ⟨habs.1, by rw [hd]; exact habs.2⟩

/-- What `received` amounts to: the exit is decided by the digest of the bytes, and
the bytes are saved under their own digest either way. -/
theorem received_eq (digest : Bytes → Digest) (want : Digest) (C : Nat) (st : Store)
    (b : Bytes) :
    received digest want C st b =
      (if want = digest b then Exit.returned true none else Exit.fatal,
        if b.length < C then (st.Save digest b).1 else (HashWriter.Sum digest ⟨b⟩ st).1) := by
  unfold received fetchFinish
  by_cases hs : b.length < C <;> by_cases hd : want = digest b <;>
    simp [hs, hd, Store.Save, HashWriter.Sum]

/-! ## Properties of `Client.Fetch` against an arbitrary peer -/

/-- Whatever the peer does, the loop reports success only after it saved bytes
whose digest is `want`. -/
theorem fetchLoop_success (digest : Bytes → Digest) (peer : Peer) (want : Digest) (C : Nat)
    (hC : 0 < C) :
    ∀ (fuel : Nat) (st : Store) (buf : Bytes) (output : Option HashWriter) (written : Int)
      (calls : Nat) (r : FetchResult),
      0 ≤ written → (written = 0 → output = none) →
      fetchLoop digest peer want C fuel st buf output written calls = some r →
      r.exit = .returned true none →
      ∃ content, digest content = want ∧
        (r.store = (st.Save digest content).1 ∨
          r.store = (HashWriter.Sum digest ⟨content⟩ st).1) := by
  intro fuel
  induction fuel with
  | zero => intro st buf output written calls r _ _ h; simp [fetchLoop] at h
  | succ n ih =>
    intro st buf output written calls r hw hout h hexit
    simp only [fetchLoop] at h
    split at h
    · simp only [Option.some.injEq] at h
      subst h
      simp at hexit
    · split at h
      · simp only [Option.some.injEq] at h
        subst h
        simp at hexit
      · split at h
        · simp only [Option.some.injEq] at h
          subst h
          simp at hexit
        · rename_i content _
          split at h
          · rename_i hshort
            have hnone := hout hshort.2
            subst hnone
            simp only [Option.some.injEq] at h
            subst h
            refine ⟨content, ?_, Or.inl ?_⟩
            · by_contra hne
              have : want ≠ digest content := fun e => hne e.symm
              simp [fetchFinish, Store.Save, this] at hexit
            · by_cases hd : want = digest content <;> simp [fetchFinish, Store.Save, hd]
          · rename_i hlong
            generalize (match output with
              | some w => w
              | none => st.NewHashWriter) = w0 at h
            split at h
            · simp only [Option.some.injEq] at h
              subst h
              refine ⟨(w0.Write content).1.temp, ?_, Or.inr ?_⟩
              · by_contra hne
                have : want ≠ digest (w0.Write content).1.temp := fun e => hne e.symm
                simp [fetchFinish, HashWriter.Sum, this] at hexit
              · by_cases hd : want = digest (w0.Write content).1.temp
                · simp [fetchFinish, HashWriter.Sum, hd]
                · simp [fetchFinish, HashWriter.Sum, hd] at hexit
            · rename_i hfull
              simp only [Option.map_eq_some'] at h
              obtain ⟨r', hr', rfl⟩ := h
              have hlen : (C : Int) ≤ content.length := by omega
              refine ih st _ _ _ _ r' ?_ ?_ hr' hexit
              · simp only [HashWriter.Write]; omega
              · intro h0
                simp only [HashWriter.Write] at h0
                omega

/-- Whatever the peer does, the loop leaves the store alone until it has received
the last chunk: every result that is not a completed transfer has the store it
started with. A response with `Have = false` is the last one of the run, and the
run then ends with `(false, nil)`. -/
theorem fetchLoop_not_present (digest : Bytes → Digest) (peer : Peer) (want : Digest) (C : Nat) :
    ∀ (fuel : Nat) (st : Store) (buf : Bytes) (output : Option HashWriter) (written : Int)
      (calls : Nat) (r : FetchResult),
      fetchLoop digest peer want C fuel st buf output written calls = some r →
      ∀ (i : Nat) (req : Request) (rep : Response),
        r.requests.get? i = some req → peer (calls + i) req = .reply rep → rep.Have = false →
        i + 1 = r.requests.length ∧ r.exit = .returned false none ∧ r.store = st := by
  intro fuel
  induction fuel with
  | zero => intro st buf output written calls r h; simp [fetchLoop] at h
  | succ n ih =>
    intro st buf output written calls r h i req rep hget hpeer hhave
    simp only [fetchLoop] at h
    have key : ∀ (rs : Request), r.requests = [rs] → i = 0 ∧ req = rs := by
      intro rs hrs
      rw [hrs] at hget
      cases i with
      | zero => simp at hget; exact ⟨rfl, hget.symm⟩
      | succ k => simp at hget
    split at h
    · rename_i e he
      simp only [Option.some.injEq] at h
      subst h
      obtain ⟨rfl, rfl⟩ := key _ rfl
      simp [he] at hpeer
    · rename_i rep0 he
      split at h
      · simp only [Option.some.injEq] at h
        subst h
        obtain ⟨rfl, rfl⟩ := key _ rfl
        simp
      · rename_i hh
        have h0 : ∀ (rs : Request), rs = ⟨want, written, written + C⟩ →
            r.requests = [rs] → False := by
          intro rs hrs hreq
          obtain ⟨rfl, rfl⟩ := key _ hreq
          rw [hrs] at hpeer
          simp only [Nat.add_zero, he, CallResult.reply.injEq] at hpeer
          subst hpeer
          simp [hhave] at hh
        split at h
        · simp only [Option.some.injEq] at h
          subst h
          exact (h0 _ rfl rfl).elim
        · split at h
          · simp only [Option.some.injEq] at h
            subst h
            exact (h0 _ rfl rfl).elim
          · split at h
            · simp only [Option.some.injEq] at h
              subst h
              exact (h0 _ rfl rfl).elim
            · simp only [Option.map_eq_some'] at h
              obtain ⟨r', hr', rfl⟩ := h
              cases i with
              | zero =>
                simp only [List.get?_cons_zero, Option.some.injEq] at hget
                subst hget
                simp only [Nat.add_zero, he, CallResult.reply.injEq] at hpeer
                subst hpeer
                simp [hhave] at hh
              | succ k =>
                simp only [List.get?_cons_succ] at hget
                have hp : peer (calls + 1 + k) req = .reply rep := by
                  rw [← hpeer]; congr 1; omega
                have := ih st _ _ _ _ r' hr' k req rep hget hp hhave
                simpa using this

/-- What the client slices from a chunk that fits its buffer, for a `Size` within
the chunk: the first `Size` bytes of the chunk. -/
theorem sliceTo_decodeChunk_le (buf c : Bytes) (n : Nat) (hn : n ≤ c.length)
    (hc : c.length ≤ buf.length) :
    sliceTo (decodeChunk buf c) (n : Int) = some (c.take n) := by
  have h : (n : Int) ≤ ((c ++ buf.drop c.length).length : Nat) := by
    simp only [List.length_append, List.length_drop]
    omega
  simp only [sliceTo, decodeChunk, hc, if_true]
  rw [if_pos ⟨by omega, h⟩]
  simp [List.take_append_of_le_length hn]

/-- The run of the loop against a peer whose responses, of any shape the client can
slice, carry the full chunks `full` and then the short chunk `last`: an only chunk
that is short is saved directly, every other run goes through the writer. -/
theorem fetchLoop_takes (digest : Bytes → Digest) (peer : Peer) (want : Digest) (C : Nat)
    (last : Bytes) (hlast : last.length < C) :
    ∀ (full : List Bytes) (reps : List Response) (fuel : Nat) (st : Store) (buf : Bytes)
      (output : Option HashWriter) (written : Int) (calls : Nat),
      (∀ c ∈ full, C ≤ c.length) → 0 ≤ written →
      Takes peer want C calls buf written reps (full ++ [last]) → full.length < fuel →
      fetchLoop digest peer want C fuel st buf output written calls =
        some (if full = [] ∧ written = 0 then
            ⟨(fetchFinish digest want (st.Save digest last).1 output (st.Save digest last).2).1,
             (fetchFinish digest want (st.Save digest last).1 output (st.Save digest last).2).2,
             requestsFor want C written (full ++ [last])⟩
          else
            ⟨(fetchFinish digest want st
                (some ⟨writtenSoFar output ++ full.flatten ++ last⟩) []).1,
             (fetchFinish digest want st
                (some ⟨writtenSoFar output ++ full.flatten ++ last⟩) []).2,
             requestsFor want C written (full ++ [last])⟩) := by
  intro full
  induction full with
  | nil =>
    intro reps fuel st buf output written calls _ hw htakes hfuel
    obtain ⟨fuel, rfl⟩ : ∃ f, fuel = f + 1 := ⟨fuel - 1, by simp at hfuel; omega⟩
    cases reps with
    | nil => simp [Takes] at htakes
    | cons rep reps =>
      simp only [List.nil_append, Takes] at htakes
      obtain ⟨hpeer, hhave, hslice, _⟩ := htakes
      simp only [reqAt] at hpeer
      by_cases hw0 : written = 0
      · subst hw0
        simp only [zero_add] at hpeer
        cases output <;>
          simp [fetchLoop, hpeer, hhave, hslice, hlast, requestsFor, reqAt]
      · cases output <;>
          simp [fetchLoop, hpeer, hhave, hslice, hlast, hw0, requestsFor, reqAt,
            HashWriter.Write, Store.NewHashWriter, writtenSoFar]
  | cons c cs ih =>
    intro reps fuel st buf output written calls hfull hw htakes hfuel
    obtain ⟨fuel, rfl⟩ : ∃ f, fuel = f + 1 := ⟨fuel - 1, by simp at hfuel; omega⟩
    cases reps with
    | nil => simp [Takes] at htakes
    | cons rep reps =>
      simp only [List.cons_append, Takes] at htakes
      obtain ⟨hpeer, hhave, hslice, hrest⟩ := htakes
      simp only [reqAt] at hpeer
      have hc : C ≤ c.length := hfull c (List.mem_cons_self _ _)
      have hnlt : ¬ c.length < C := by omega
      have hw1 : 0 ≤ written + (c.length : Int) := by omega
      have hw2 : ¬ (written + (c.length : Int) = 0) := by omega
      have hrec := ih reps fuel st (bufAfter buf rep.Chunk)
        (some ⟨writtenSoFar output ++ c⟩) (written + c.length) (calls + 1)
        (fun x hx => hfull x (List.mem_cons_of_mem _ hx)) hw1 hrest
        (by simp at hfuel; omega)
      simp only [hw2, and_false, if_false] at hrec
      cases output <;>
        simp [fetchLoop, hpeer, hhave, hslice, hnlt, HashWriter.Write,
          Store.NewHashWriter, writtenSoFar, requestsFor, reqAt, List.append_assoc] at hrec ⊢ <;>
        simp [hrec]

/-- The run of the loop against a peer whose responses carry the full chunks `full`
and whose next response has `Have = false`: the loop returns `(false, nil)` after
that request, with the store it started with. -/
theorem fetchLoop_stops (digest : Bytes → Digest) (peer : Peer) (want : Digest) (C : Nat)
    (rep' : Response) (hhave' : rep'.Have = false) :
    ∀ (full : List Bytes) (reps : List Response) (fuel : Nat) (st : Store) (buf : Bytes)
      (output : Option HashWriter) (written : Int) (calls : Nat),
      (∀ c ∈ full, C ≤ c.length) →
      Takes peer want C calls buf written reps full →
      peer (calls + full.length)
        (reqAt want C (written + ((full.flatten.length : Nat) : Int))) = .reply rep' →
      full.length < fuel →
      fetchLoop digest peer want C fuel st buf output written calls =
        some ⟨.returned false none, st,
          requestsFor want C written full ++
            [reqAt want C (written + ((full.flatten.length : Nat) : Int))]⟩ := by
  intro full
  induction full with
  | nil =>
    intro reps fuel st buf output written calls _ _ hlast hfuel
    obtain ⟨fuel, rfl⟩ : ∃ f, fuel = f + 1 := ⟨fuel - 1, by simp at hfuel; omega⟩
    simp only [List.length_nil, Nat.add_zero, List.flatten_nil, Nat.cast_zero, add_zero,
      reqAt] at hlast
    simp [fetchLoop, hlast, hhave', requestsFor, reqAt]
  | cons c cs ih =>
    intro reps fuel st buf output written calls hfull htakes hlast hfuel
    obtain ⟨fuel, rfl⟩ : ∃ f, fuel = f + 1 := ⟨fuel - 1, by simp at hfuel; omega⟩
    cases reps with
    | nil => simp [Takes] at htakes
    | cons rep reps =>
      simp only [Takes] at htakes
      obtain ⟨hpeer, hhave, hslice, hrest⟩ := htakes
      simp only [reqAt] at hpeer
      have hc : C ≤ c.length := hfull c (List.mem_cons_self _ _)
      have hnlt : ¬ c.length < C := by omega
      have hoff : written + (((c :: cs).flatten.length : Nat) : Int) =
          written + (c.length : Int) + ((cs.flatten.length : Nat) : Int) := by
        simp only [List.flatten_cons, List.length_append]
        push_cast
        ring
      have hidx : calls + (c :: cs).length = calls + 1 + cs.length := by
        simp only [List.length_cons]; omega
      rw [hoff, hidx] at hlast
      have hrec := ih reps fuel st (bufAfter buf rep.Chunk)
        (some (HashWriter.Write (match output with
          | some w => w
          | none => st.NewHashWriter) c).1) (written + c.length) (calls + 1)
        (fun x hx => hfull x (List.mem_cons_of_mem _ hx)) hrest hlast
        (by simp at hfuel; omega)
      rw [hoff]
      simp only [fetchLoop, hpeer, hhave, hslice, hnlt, false_and, if_false,
        Bool.not_true, Bool.false_eq_true, HashWriter.Write] at hrec ⊢
      rw [hrec]
      simp [requestsFor, reqAt]

/-- Whatever the peer does, a run of the loop ends in one of two ways: early, by a
failure return or a panic, with the store untouched; or after the last chunk, with
the bytes received saved under their own digest and the exit decided by that
digest. -/
theorem fetchLoop_outcomes (digest : Bytes → Digest) (peer : Peer) (want : Digest) (C : Nat)
    (hC : 0 < C) :
    ∀ (fuel : Nat) (st : Store) (buf : Bytes) (output : Option HashWriter) (written : Int)
      (calls : Nat) (r : FetchResult),
      0 ≤ written → (written = 0 → output = none) →
      fetchLoop digest peer want C fuel st buf output written calls = some r →
      (r.store = st ∧ (r.exit = .panicked ∨ ∃ e, r.exit = .returned false e)) ∨
        ∃ content,
          r.exit = (if want = digest content then .returned true none else .fatal) ∧
          (r.store = (st.Save digest content).1 ∨
            r.store = (HashWriter.Sum digest ⟨content⟩ st).1) := by
  intro fuel
  induction fuel with
  | zero => intro st buf output written calls r _ _ h; simp [fetchLoop] at h
  | succ n ih =>
    intro st buf output written calls r hw hout h
    simp only [fetchLoop] at h
    split at h
    · simp only [Option.some.injEq] at h
      subst h
      exact Or.inl ⟨rfl, Or.inr ⟨_, rfl⟩⟩
    · split at h
      · simp only [Option.some.injEq] at h
        subst h
        exact Or.inl ⟨rfl, Or.inr ⟨_, rfl⟩⟩
      · split at h
        · simp only [Option.some.injEq] at h
          subst h
          exact Or.inl ⟨rfl, Or.inl rfl⟩
        · rename_i content _
          split at h
          · rename_i hshort
            have hnone := hout hshort.2
            subst hnone
            simp only [Option.some.injEq] at h
            subst h
            refine Or.inr ⟨content, ?_, Or.inl ?_⟩
            · by_cases hd : want = digest content <;> simp [fetchFinish, Store.Save, hd]
            · by_cases hd : want = digest content <;> simp [fetchFinish, Store.Save, hd]
          · rename_i hlong
            generalize (match output with
              | some w => w
              | none => st.NewHashWriter) = w0 at h
            split at h
            · simp only [Option.some.injEq] at h
              subst h
              refine Or.inr ⟨(w0.Write content).1.temp, ?_, Or.inr ?_⟩
              · by_cases hd : want = digest (w0.Write content).1.temp <;>
                  simp [fetchFinish, HashWriter.Sum, hd]
              · by_cases hd : want = digest (w0.Write content).1.temp <;>
                  simp [fetchFinish, HashWriter.Sum, hd]
            · rename_i hfull
              simp only [Option.map_eq_some'] at h
              obtain ⟨r', hr', rfl⟩ := h
              have hlen : (C : Int) ≤ content.length := by omega
              refine ih st _ _ _ _ r' ?_ ?_ hr'
              · simp only [HashWriter.Write]; omega
              · intro h0
                simp only [HashWriter.Write] at h0
                omega

/-- Whatever the peer does, a run that does not report success leaves a store that
held nothing under `want` holding nothing under `want`. -/
theorem fetchLoop_keeps_want_absent (digest : Bytes → Digest) (peer : Peer) (want : Digest)
    (C : Nat) (hC : 0 < C) (fuel : Nat) (st : Store) (buf : Bytes) (r : FetchResult)
    (h : fetchLoop digest peer want C fuel st buf none 0 0 = some r)
    (hexit : r.exit ≠ .returned true none) (habs : st.HasHash want = false) :
    r.store.HasHash want = false := by
  rcases fetchLoop_outcomes digest peer want C hC fuel st buf none 0 0 r (le_refl _)
    (fun _ => rfl) h with ⟨hst, _⟩ | ⟨content, hex, hst⟩
  · rw [hst]; exact habs
  · have hne : want ≠ digest content := by
      intro e
      rw [if_pos e] at hex
      exact hexit hex
    rcases hst with hst | hst
    · rw [hst]; exact hasHash_save_other digest st content want hne habs
    · rw [hst]; exact hasHash_sum_other digest st ⟨content⟩ want hne habs

/-! ## The chunk protocol end to end -/

theorem chunkSize_eq : chunkSize = 262144 := by decide

theorem chunkSize_pos : 0 < chunkSize := by decide

theorem contents_diskOnly (d : Digest) (b : Bytes) :
    (diskOnly d b).ContentsIfLoaded d = none ∧ (diskOnly d b).readPath d = some b := by
  simp [diskOnly, Store.ContentsIfLoaded, Store.readPath]

theorem contents_resident (d : Digest) (b : Bytes) :
    (resident d b).ContentsIfLoaded d = some b := by
  simp [resident, Store.ContentsIfLoaded]

theorem length_zeros (n : Nat) : (zeros n).length = n := by
  simp [zeros]

/-- The loop against the server of a store that has a blob longer than a chunk
resident: the first response carries one chunk and the full length as `Size`, and
slicing the chunk to `Size` panics. -/
theorem fetchLoop_hot_large (digest : Bytes → Digest) {server : Store} {want : Digest}
    {c : Bytes} (C : Nat) (hhot : server.ContentsIfLoaded want = some c) (hlen : C < c.length)
    (st : Store) (buf : Bytes) (hbuf : buf.length = C) (output : Option HashWriter)
    (fuel : Nat) :
    fetchLoop digest (servePeer server) want C (fuel + 1) st buf output 0 0 =
      some ⟨.panicked, st, [reqAt want C 0]⟩ := by
  have h := @serveChunk_hot server (reqAt want C 0) Response.zero c hhot
    (by simp [reqAt]) (by simp [reqAt]) (by simp [reqAt])
  have hmin : min ((0 : Int) + (C : Int)) (c.length : Int) = C := by omega
  have hpeer : servePeer server 0 ⟨want, 0, 0 + (C : Int)⟩ = .reply ⟨true, c.length, c.take C⟩ := by
    have e : (⟨want, 0, 0 + (C : Int)⟩ : Request) = reqAt want C 0 := rfl
    rw [e]
    simp only [servePeer, h]
    simp only [reqAt, hmin, Int.sub_zero, Int.toNat_ofNat, Int.toNat_zero, List.drop_zero]
  have hdec : sliceTo (decodeChunk buf (c.take C)) (c.length : Int) = none := by
    have h1 : (c.take C).length = C := by simp; omega
    simp only [sliceTo, decodeChunk, h1, hbuf, le_refl, if_true]
    have h2 : ¬ (0 ≤ (c.length : Int) ∧ (c.length : Int) ≤ ((c.take C ++ buf.drop C).length : Nat)) := by
      simp only [List.length_append, h1, List.length_drop, hbuf]
      omega
    rw [if_neg h2]
  simp only [fetchLoop, hpeer, hdec, reqAt]
  simp

/-- The bytes a store holds for `d` after a blob with digest `d` was saved. -/
theorem readPath_save_isSome (digest : Bytes → Digest) (st : Store) (c : Bytes) :
    (st.Save digest c).1.HasHash (digest c) = true ∧
      (st.readPath (digest c) = none → (st.Save digest c).1.readPath (digest c) = some c) := by
  refine ⟨?_, readPath_save_self digest st c⟩
  cases h : st.readPath (digest c) with
  | none => exact hasHash_of_disk (readPath_save_self digest st c h)
  | some x =>
    apply hasHash_of_disk (b := x)
    unfold Store.readPath at h
    simp [Store.Save, Store.readPath, h]

theorem readPath_sum_isSome (digest : Bytes → Digest) (st : Store) (w : HashWriter) :
    (w.Sum digest st).1.HasHash (digest w.temp) = true ∧
      (st.readPath (digest w.temp) = none →
        (w.Sum digest st).1.readPath (digest w.temp) = some w.temp) := by
  refine ⟨?_, readPath_sum_self digest st w⟩
  cases h : st.readPath (digest w.temp) with
  | none => exact hasHash_of_disk (readPath_sum_self digest st w h)
  | some x =>
    apply hasHash_of_disk (b := x)
    unfold Store.readPath at h
    simp [HashWriter.Sum, Store.readPath, h]

/-- The client's fetch against a server that holds `b` under `want`, either on disk
only or resident and shorter than a chunk: all of `b` arrives, with one request
per started chunk and one more when the length is a multiple of the chunk size. -/
theorem fetch_served (digest : Bytes → Digest) (server client : Store) (want : Digest)
    (b : Bytes) (fuel : Nat)
    (hserved : (server.ContentsIfLoaded want = none ∧ server.readPath want = some b) ∨
      (server.ContentsIfLoaded want = some b ∧ b.length < chunkSize))
    (hfuel : b.length / chunkSize < fuel) :
    Client.Fetch digest client (servePeer server) want fuel =
      some ⟨(received digest want chunkSize client b).1,
        (received digest want chunkSize client b).2,
        (List.range (b.length / chunkSize + 1)).map
          (fun i => reqAt want chunkSize ((i * chunkSize : Nat) : Int))⟩ := by
  rcases hserved with ⟨hhot, hdisk⟩ | ⟨hhot, hsmall⟩
  · exact fetchLoop_disk digest chunkSize chunkSize_pos (by decide) hhot hdisk client _ fuel
      hfuel
  · have h := fetchLoop_hot_small digest chunkSize hhot hsmall client
      (List.replicate chunkSize 0) fuel (Nat.lt_of_le_of_lt (Nat.zero_le _) hfuel)
    have hz : b.length / chunkSize = 0 := Nat.div_eq_of_lt hsmall
    rw [hz]
    simpa [Client.Fetch] using h

/-- The part of the round trip that holds: a blob the server holds on disk only,
or resident and shorter than a chunk, is fetched with `(true, nil)` and is in the
client's store afterwards. -/
theorem fetch_roundtrip_served (digest : Bytes → Digest) (server client : Store) (b : Bytes)
    (fuel : Nat)
    (hserved : (server.ContentsIfLoaded (digest b) = none ∧
        server.readPath (digest b) = some b) ∨
      (server.ContentsIfLoaded (digest b) = some b ∧ b.length < chunkSize))
    (hfuel : b.length / chunkSize < fuel) :
    ∃ r, Client.Fetch digest client (servePeer server) (digest b) fuel = some r ∧
      r.exit = .returned true none ∧ r.store.HasHash (digest b) = true ∧
      (client.readPath (digest b) = none → r.store.readPath (digest b) = some b) := by
  refine ⟨_, fetch_served digest server client (digest b) b fuel hserved hfuel, ?_, ?_, ?_⟩
  · simp [received_eq]
  · simp only [received_eq]
    by_cases hs : b.length < chunkSize
    · simp only [hs, if_true]; exact (readPath_save_isSome digest client b).1
    · simp only [hs, if_false]; exact (readPath_sum_isSome digest client ⟨b⟩).1
  · intro habs
    simp only [received_eq]
    by_cases hs : b.length < chunkSize
    · simp only [hs, if_true]; exact (readPath_save_isSome digest client b).2 habs
    · simp only [hs, if_false]; exact (readPath_sum_isSome digest client ⟨b⟩).2 habs

/-- C1 (code defect): `Client.Fetch` of a 300000-byte blob that the serving store
has resident in its hot set does not return `(true, nil)`. The first response
carries the chunk `[0, 262144)` with `Size = 300000`, and the client's
`rep.Chunk[:rep.Size]` panics; nothing is saved. -/
theorem fetch_resident_blob_of_300000_bytes_panics :
    Client.Fetch idDigest freshStore
        (servePeer (resident (idDigest (zeros 300000)) (zeros 300000)))
        (idDigest (zeros 300000)) 2 =
      some ⟨.panicked, freshStore, [⟨idDigest (zeros 300000), 0, 262144⟩]⟩ := by
  have h := @fetchLoop_hot_large idDigest (resident (idDigest (zeros 300000)) (zeros 300000))
    (idDigest (zeros 300000)) (zeros 300000) chunkSize
    (contents_resident _ _) (by rw [length_zeros]; decide) freshStore
    (List.replicate chunkSize 0) (by simp) none 1
  have e : reqAt (idDigest (zeros 300000)) chunkSize 0 = ⟨idDigest (zeros 300000), 0, 262144⟩ := by
    simp [reqAt, chunkSize_eq]
  rw [e] at h
  exact h

/-- C2 (code defect): the two paths of `Store.ServeChunk` disagree on `Size`. For
the 5-byte blob `"hello"` and the request `[0, 3)`, the disk path answers
`Size = 3`, the number of bytes read, where the claim (and the hot path, which
answers `Size = 5`) has the full length of the blob; the chunk is `"hel"` on both
paths. -/
theorem serveChunk_size_on_disk_is_bytes_read :
    (diskOnly (idDigest hello) hello).ServeChunk ⟨idDigest hello, 0, 3⟩ Response.zero =
        .done ⟨idDigest hello, 0, 3⟩ ⟨true, 3, [104, 101, 108]⟩ none ∧
      (resident (idDigest hello) hello).ServeChunk ⟨idDigest hello, 0, 3⟩ Response.zero =
        .done ⟨idDigest hello, 0, 3⟩ ⟨true, 5, [104, 101, 108]⟩ none ∧
      hello.length = 5 := by
  decide

/-- C3 (counterexample): a blob of exactly one chunk, 262144 bytes, held on disk by
the peer costs two requests, `[0, 262144)` and `[262144, 524288)`, the second one
answered with an empty chunk, where `ceil(262144 / 262144)` is one. -/
theorem fetch_of_one_full_chunk_costs_two_requests :
    (Client.Fetch idDigest freshStore
        (servePeer (diskOnly (idDigest (zeros 262144)) (zeros 262144)))
        (idDigest (zeros 262144)) 2).map (fun r => (r.exit, r.requests)) =
      some (.returned true none,
        [⟨idDigest (zeros 262144), 0, 262144⟩, ⟨idDigest (zeros 262144), 262144, 524288⟩]) ∧
      (262144 + chunkSize - 1) / chunkSize = 1 := by
  refine ⟨?_, by decide⟩
  have h := fetch_served idDigest (diskOnly (idDigest (zeros 262144)) (zeros 262144)) freshStore
    (idDigest (zeros 262144)) (zeros 262144) 2 (Or.inl (contents_diskOnly _ _))
    (by rw [length_zeros]; decide)
  have hr : (zeros 262144).length / chunkSize + 1 = 2 := by rw [length_zeros]; decide
  rw [h, hr, received_eq]
  have h2 : List.range 2 = [0, 1] := by decide
  simp [h2, reqAt, chunkSize_eq]

/-- C3 (amended): a fetch of the digest of a blob of `s` bytes, which the peer
holds on disk only or resident and shorter than a chunk, succeeds with exactly
`floor(s / chunk_size) + 1` requests, the `i`-th for the range
`[i * chunk_size, (i + 1) * chunk_size)`; this is `ceil(s / chunk_size)` whenever
`s` is not a multiple of the chunk size. -/
theorem fetch_request_count (digest : Bytes → Digest) (server client : Store) (b : Bytes)
    (fuel : Nat)
    (hserved : (server.ContentsIfLoaded (digest b) = none ∧
        server.readPath (digest b) = some b) ∨
      (server.ContentsIfLoaded (digest b) = some b ∧ b.length < chunkSize))
    (hfuel : b.length / chunkSize < fuel) :
    ∃ r, Client.Fetch digest client (servePeer server) (digest b) fuel = some r ∧
      r.exit = .returned true none ∧
      r.requests = (List.range (b.length / chunkSize + 1)).map
        (fun i => ⟨digest b, ((i * chunkSize : Nat) : Int), (((i + 1) * chunkSize : Nat) : Int)⟩) ∧
      r.requests.length = b.length / chunkSize + 1 ∧
      (b.length % chunkSize ≠ 0 →
        r.requests.length = (b.length + chunkSize - 1) / chunkSize) := by
  refine ⟨_, fetch_served digest server client (digest b) b fuel hserved hfuel, ?_, ?_, ?_, ?_⟩
  · simp [received_eq]
  · apply List.map_congr_left
    intro i _
    have e : ((i * chunkSize : Nat) : Int) + (chunkSize : Int) =
        (((i + 1) * chunkSize : Nat) : Int) := by
      push_cast
      ring
    simp only [reqAt, e]
  · simp
  · intro hmod
    simp only [List.length_map, List.length_range]
    rw [chunkSize_eq] at hmod ⊢
    omega

/-- C3 (witness): the 5-byte blob `"hello"`, held on disk, costs one request. -/
theorem fetch_request_count_witness :
    ((diskOnly (idDigest hello) hello).ContentsIfLoaded (idDigest hello) = none ∧
        (diskOnly (idDigest hello) hello).readPath (idDigest hello) = some hello) ∧
      hello.length / chunkSize < 1 ∧
      ∃ r, Client.Fetch idDigest freshStore (servePeer (diskOnly (idDigest hello) hello))
          (idDigest hello) 1 = some r ∧
        r.exit = .returned true none ∧
        r.requests = (List.range (hello.length / chunkSize + 1)).map
          (fun i => ⟨idDigest hello, ((i * chunkSize : Nat) : Int),
            (((i + 1) * chunkSize : Nat) : Int)⟩) ∧
        r.requests.length = hello.length / chunkSize + 1 ∧
        (hello.length % chunkSize ≠ 0 →
          r.requests.length = (hello.length + chunkSize - 1) / chunkSize) :=
  ⟨contents_diskOnly _ _, by decide,
    fetch_request_count idDigest (diskOnly (idDigest hello) hello) freshStore hello 1
      (Or.inl (contents_diskOnly _ _)) (by decide)⟩

/-- C6 (code defect): a request that starts beyond the end of a resident blob makes
`Store.ServeChunk` panic. For the 5-byte blob `"hello"` and the request `[6, 10)`,
the hot path caps `End` to 5 and evaluates `c[6:5]`; the disk path answers the same
request with an empty chunk and no error, as the claim says. -/
theorem serveChunk_beyond_resident_blob_panics :
    (resident (idDigest hello) hello).ServeChunk ⟨idDigest hello, 6, 10⟩ Response.zero =
        .panic ∧
      (diskOnly (idDigest hello) hello).ServeChunk ⟨idDigest hello, 6, 10⟩ Response.zero =
        .done ⟨idDigest hello, 6, 10⟩ ⟨true, 0, []⟩ none := by
  decide

/-- The client's fetch against a peer that plays back the full chunks `full` and
then the short chunk `last`: all the bytes arrive and are saved under their own
digest, and the exit is decided by that digest. -/
theorem fetch_replyChunks (digest : Bytes → Digest) (st : Store) (want : Digest)
    (full : List Bytes) (last : Bytes) (fuel : Nat)
    (hfull : ∀ c ∈ full, chunkSize ≤ c.length) (hlast : last.length < chunkSize)
    (hfuel : full.length < fuel) :
    Client.Fetch digest st (replyChunks (full ++ [last])) want fuel =
      some ⟨if want = digest (full.flatten ++ last) then .returned true none else .fatal,
        if (full.flatten ++ last).length < chunkSize then
          (st.Save digest (full.flatten ++ last)).1
        else (HashWriter.Sum digest ⟨full.flatten ++ last⟩ st).1,
        requestsFor want chunkSize 0 (full ++ [last])⟩ := by
  have hans := answers_replyChunks want chunkSize (full ++ [last]) [] 0
  simp only [List.nil_append, List.length_nil] at hans
  have hrun := fetchLoop_run digest (replyChunks (full ++ [last])) want chunkSize last hlast
    full fuel st (List.replicate chunkSize 0) none 0 0 hfull (le_refl _) hans hfuel
  unfold Client.Fetch
  rw [hrun]
  cases full with
  | nil =>
    have h := received_eq digest want chunkSize st last
    simp only [received, hlast, if_true] at h
    simp [h, hlast]
  | cons c cs =>
    have hc : chunkSize ≤ c.length := hfull c (List.mem_cons_self _ _)
    have hlong : ¬ ((c :: cs).flatten ++ last).length < chunkSize := by
      simp only [List.flatten_cons, List.length_append]
      omega
    have h := received_eq digest want chunkSize st ((c :: cs).flatten ++ last)
    simp only [received, hlong, if_false] at h
    simp only [List.cons_ne_nil, false_and, if_false, writtenSoFar, List.nil_append, h, hlong]

/-- One request is issued per response taken. -/
theorem requestsFor_length_of_takes (want : Digest) (C : Nat) :
    ∀ (cs : List Bytes) (reps : List Response) (peer : Peer) (calls : Nat) (buf : Bytes)
      (written : Int), Takes peer want C calls buf written reps cs →
      (requestsFor want C written cs).length = reps.length := by
  intro cs
  induction cs with
  | nil =>
    intro reps peer calls buf written h
    cases reps with
    | nil => rfl
    | cons rep reps => simp [Takes] at h
  | cons c cs ih =>
    intro reps peer calls buf written h
    cases reps with
    | nil => simp [Takes] at h
    | cons rep reps =>
      simp only [Takes] at h
      simp only [requestsFor, List.length_cons]
      rw [ih reps peer _ _ _ h.2.2.2]

/-- The client's fetch against a peer whose responses, of any shape the client can
slice, carry the full chunks `full` and then the short chunk `last`: with fuel for
one request per response the fetch ends, all the bytes taken are saved under their
own digest, and the exit is decided by that digest. -/
theorem fetch_takes (digest : Bytes → Digest) (st : Store) (want : Digest) (peer : Peer)
    (reps : List Response) (full : List Bytes) (last : Bytes) (fuel : Nat)
    (htakes : Takes peer want chunkSize 0 (List.replicate chunkSize 0) 0 reps (full ++ [last]))
    (hfull : ∀ c ∈ full, chunkSize ≤ c.length) (hlast : last.length < chunkSize)
    (hfuel : full.length < fuel) :
    Client.Fetch digest st peer want fuel =
      some ⟨if want = digest (full.flatten ++ last) then .returned true none else .fatal,
        if (full.flatten ++ last).length < chunkSize then
          (st.Save digest (full.flatten ++ last)).1
        else (HashWriter.Sum digest ⟨full.flatten ++ last⟩ st).1,
        requestsFor want chunkSize 0 (full ++ [last])⟩ := by
  have hrun := fetchLoop_takes digest peer want chunkSize last hlast
    full reps fuel st (List.replicate chunkSize 0) none 0 0 hfull (le_refl _) htakes hfuel
  unfold Client.Fetch
  rw [hrun]
  cases full with
  | nil =>
    have h := received_eq digest want chunkSize st last
    simp only [received, hlast, if_true] at h
    simp [h, hlast]
  | cons c cs =>
    have hc : chunkSize ≤ c.length := hfull c (List.mem_cons_self _ _)
    have hlong : ¬ ((c :: cs).flatten ++ last).length < chunkSize := by
      simp only [List.flatten_cons, List.length_append]
      omega
    have h := received_eq digest want chunkSize st ((c :: cs).flatten ++ last)
    simp only [received, hlong, if_false] at h
    simp only [List.cons_ne_nil, false_and, if_false, writtenSoFar, List.nil_append, h, hlong]

/-- C4 (counterexample): two sequences of responses whose bytes do not hash to the
requested digest, the digest of `"hello"`, and for which the fetch does not end in
`log.Fatalf`. Against the server of a store that has 300000 zero bytes resident
under that digest, the first response has `Size = 300000` for a chunk of 262144
bytes and the client panics. Against a peer that sends a full chunk of zero bytes
and then `Have = false`, the fetch returns `(false, nil)` and the process lives. In
both runs nothing is saved. -/
theorem fetch_corrupt_without_fatal :
    Client.Fetch idDigest freshStore
        (servePeer (resident (idDigest hello) (zeros 300000))) (idDigest hello) 2 =
        some ⟨.panicked, freshStore, [⟨idDigest hello, 0, 262144⟩]⟩ ∧
      Client.Fetch idDigest freshStore
        (replyAll [⟨true, 262144, zeros 262144⟩, ⟨false, 0, []⟩]) (idDigest hello) 2 =
        some ⟨.returned false none, freshStore,
          [⟨idDigest hello, 0, 262144⟩, ⟨idDigest hello, 262144, 524288⟩]⟩ ∧
      idDigest (zeros 300000) ≠ idDigest hello ∧ idDigest (zeros 262144) ≠ idDigest hello := by
  have hne : ∀ n : Nat, n ≠ 5 → idDigest (zeros n) ≠ idDigest hello := by
    intro n hn h
    have hl := congrArg List.length h
    simp only [idDigest, id, length_zeros] at hl
    exact hn hl
  refine ⟨?_, ?_, hne _ (by decide), hne _ (by decide)⟩
  · have h := @fetchLoop_hot_large idDigest (resident (idDigest hello) (zeros 300000))
      (idDigest hello) (zeros 300000) chunkSize
      (contents_resident _ _) (by rw [length_zeros]; decide) freshStore
      (List.replicate chunkSize 0) (by simp) none 1
    have e : reqAt (idDigest hello) chunkSize 0 = ⟨idDigest hello, 0, 262144⟩ := by
      simp [reqAt, chunkSize_eq]
    rw [e] at h
    exact h
  · have hslice : sliceTo (decodeChunk (List.replicate chunkSize 0) (zeros 262144))
        (262144 : Int) = some (zeros 262144) := by
      have h := sliceTo_decodeChunk (List.replicate chunkSize 0) (zeros 262144)
      rw [length_zeros] at h
      exact h
    have h := fetchLoop_stops idDigest
      (replyAll [⟨true, 262144, zeros 262144⟩, ⟨false, 0, []⟩]) (idDigest hello) chunkSize
      ⟨false, 0, []⟩ rfl [zeros 262144] [⟨true, 262144, zeros 262144⟩] 2 freshStore
      (List.replicate chunkSize 0) none 0 0
      (by simp [length_zeros, chunkSize_eq])
      ⟨by simp [replyAll], rfl, hslice, trivial⟩ (by simp [replyAll]) (by simp)
    unfold Client.Fetch
    rw [h]
    simp [requestsFor, reqAt, length_zeros, chunkSize_eq]

/-- C4 (amended): `Client.Fetch(want)` returns `(true, nil)` only if the digest of
the content it saved equals `want`, whatever the peer does. For every sequence of
peer responses that the client takes to the end (each has `Have = true` and a
`Size` that its chunk can be sliced to, all chunks but the last are full and the
last is short) and whose bytes hash to a digest different from `want`, the fetch,
given fuel for one request per response, ends in `log.Fatalf`, and a store that did
not hold `want` before does not hold it afterwards. Whatever the peer does, a fetch
that does not return success leaves a store that did not hold `want` without it.
`RpcFs.FetchHashOnce` has the same check: a fetch that returned without error and
saved another digest is fatal. -/
theorem fetch_corruption_is_fatal (digest : Bytes → Digest) (st : Store) (want : Digest)
    (peer : Peer) (reps : List Response) (full : List Bytes) (last : Bytes) (fuel : Nat)
    (htakes : Takes peer want chunkSize 0 (List.replicate chunkSize 0) 0 reps (full ++ [last]))
    (hfull : ∀ c ∈ full, chunkSize ≤ c.length) (hlast : last.length < chunkSize)
    (hbad : digest (full.flatten ++ last) ≠ want) (hfuel : full.length < fuel) :
    (∀ (peer' : Peer) (n : Nat) (r : FetchResult),
        Client.Fetch digest st peer' want n = some r → r.exit = .returned true none →
        ∃ content, digest content = want ∧
          (r.store = (st.Save digest content).1 ∨
            r.store = (HashWriter.Sum digest ⟨content⟩ st).1)) ∧
      (∃ r, Client.Fetch digest st peer want fuel = some r ∧
        r.exit = .fatal ∧ r.requests.length = reps.length ∧
        (st.HasHash want = false → r.store.HasHash want = false)) ∧
      (∀ (peer' : Peer) (n : Nat) (r : FetchResult),
        Client.Fetch digest st peer' want n = some r → r.exit ≠ .returned true none →
        st.HasHash want = false → r.store.HasHash want = false) ∧
      (∀ (me : RpcFs) (a : FileAttr) (cache : Store) (saved : Digest),
        a.Hash = want → saved ≠ want →
        ∃ me', me.FetchHashOnce a .fetching (.fetched cache saved none) = some (me', .fatal)) := by
  refine ⟨?_, ?_, ?_, ?_⟩
  · intro peer' n r h hexit
    exact fetchLoop_success digest peer' want chunkSize chunkSize_pos n st _ none 0 0 r
      (le_refl _) (fun _ => rfl) h hexit
  · have hne : want ≠ digest (full.flatten ++ last) := fun e => hbad e.symm
    refine ⟨_, fetch_takes digest st want peer reps full last fuel htakes hfull hlast hfuel,
      ?_, ?_, ?_⟩
    · simp [hne]
    · exact requestsFor_length_of_takes want chunkSize _ _ _ _ _ _ htakes
    · intro habs
      by_cases hs : (full.flatten ++ last).length < chunkSize
      · simp only [hs, if_true]
        exact hasHash_save_other digest st _ want hne habs
      · simp only [hs, if_false]
        exact hasHash_sum_other digest st ⟨full.flatten ++ last⟩ want hne habs
  · intro peer' n r h hexit habs
    exact fetchLoop_keeps_want_absent digest peer' want chunkSize chunkSize_pos n st _ r h
      hexit habs
  · intro me a cache saved ha hs
    refine ⟨{ me with cache := cache }, ?_⟩
    simp [RpcFs.FetchHashOnce, RpcFs.fetchReturned, ha, hs]

/-- The client slices `"XXX"` from the chunk `"XXXXX"` sent with `Size = 3`. -/
theorem sliceTo_xxxxx_three :
    sliceTo (decodeChunk (List.replicate chunkSize 0) xxxxx) 3 = some [88, 88, 88] := by
  have h := sliceTo_decodeChunk_le (List.replicate chunkSize 0) xxxxx 3 (by decide)
    (by rw [List.length_replicate]; decide)
  have e : ((3 : Nat) : Int) = 3 := rfl
  have t : xxxxx.take 3 = [88, 88, 88] := by decide
  rw [e, t] at h
  exact h

/-- The peer that sends the one response `<true, 3, "XXXXX">` and what the client
takes from it. -/
theorem takes_xxxxx_three (want : Digest) :
    Takes (replyAll [⟨true, 3, xxxxx⟩]) want chunkSize 0
      (List.replicate chunkSize 0) 0 [⟨true, 3, xxxxx⟩] ([] ++ [[88, 88, 88]]) := by
  simp only [List.nil_append, Takes]
  exact ⟨by simp [replyAll], trivial, sliceTo_xxxxx_three, trivial⟩

/-- C4 (witness): the peer answers the fetch of the digest of `"hello"` with one
response, the chunk `"XXXXX"` with `Size = 3`; the client takes `"XXX"`. -/
theorem fetch_corruption_is_fatal_witness :
    Takes (replyAll [⟨true, 3, xxxxx⟩]) (idDigest hello) chunkSize 0
        (List.replicate chunkSize 0) 0 [⟨true, 3, xxxxx⟩] ([] ++ [[88, 88, 88]]) ∧
      (∀ c ∈ ([] : List Bytes), chunkSize ≤ c.length) ∧
      ([88, 88, 88] : Bytes).length < chunkSize ∧
      idDigest (([] : List Bytes).flatten ++ [88, 88, 88]) ≠ idDigest hello ∧
      ∃ r, Client.Fetch idDigest freshStore (replyAll [⟨true, 3, xxxxx⟩]) (idDigest hello) 1 =
          some r ∧
        r.exit = .fatal ∧ r.requests.length = [(⟨true, 3, xxxxx⟩ : Response)].length ∧
        (freshStore.HasHash (idDigest hello) = false →
          r.store.HasHash (idDigest hello) = false) :=
  ⟨takes_xxxxx_three _, by simp, by decide, by decide,
    (fetch_corruption_is_fatal idDigest freshStore (idDigest hello)
      (replyAll [⟨true, 3, xxxxx⟩]) [⟨true, 3, xxxxx⟩] [] [88, 88, 88] 1
      (takes_xxxxx_three _) (by simp) (by decide) (by decide) (by decide)).2.1⟩

/-- C5 (counterexample): the peer answers the fetch of the digest of `"hello"` with
the chunk `"XXXXX"`. The client saves the chunk before it compares digests, so when
the process dies the store, empty before, holds the blob `"XXXXX"` on disk and in
the hot set. -/
theorem fetch_corrupt_chunk_is_written :
    Client.Fetch idDigest freshStore (replyChunks [xxxxx]) (idDigest hello) 1 =
        some ⟨.fatal, ⟨1024, 4096, [(idDigest xxxxx, xxxxx)], [(idDigest xxxxx, xxxxx)]⟩,
          [⟨idDigest hello, 0, 262144⟩]⟩ ∧
      freshStore.disk = [] ∧ freshStore.hot = [] := by
  refine ⟨?_, rfl, rfl⟩
  have h := fetch_replyChunks idDigest freshStore (idDigest hello) [] xxxxx 1 (by simp)
    (by decide) (by decide)
  simp only [List.nil_append, List.flatten_nil] at h
  rw [h]
  have e : requestsFor (idDigest hello) chunkSize 0 [xxxxx] = [⟨idDigest hello, 0, 262144⟩] := by
    simp [requestsFor, reqAt, chunkSize_eq]
  rw [e]
  have h1 : ¬ idDigest hello = idDigest xxxxx := by decide
  have h2 : xxxxx.length < chunkSize := by decide
  have h3 : (freshStore.Save idDigest xxxxx).1 =
      ⟨1024, 4096, [(idDigest xxxxx, xxxxx)], [(idDigest xxxxx, xxxxx)]⟩ := by decide
  simp only [h1, h2, h3, if_true, if_false]

/-- C5 (amended): when the peer answers a fetch with responses that the client
takes to the end (each has `Have = true` and a `Size` that its chunk can be sliced
to, all chunks but the last are full and the last is short) and the bytes taken do
not hash to the requested digest, the client process, given fuel for one request
per response, terminates in `log.Fatalf`; the bytes taken have by then been saved
as a blob under their own digest (unless the store already had a blob there), every
other file of the store is as before, and what the store has on disk for the
requested digest is unchanged. -/
theorem fetch_corrupt_saves_received_bytes (digest : Bytes → Digest) (st : Store)
    (want : Digest) (peer : Peer) (reps : List Response) (full : List Bytes) (last : Bytes)
    (fuel : Nat)
    (htakes : Takes peer want chunkSize 0 (List.replicate chunkSize 0) 0 reps (full ++ [last]))
    (hfull : ∀ c ∈ full, chunkSize ≤ c.length) (hlast : last.length < chunkSize)
    (hbad : digest (full.flatten ++ last) ≠ want) (hfuel : full.length < fuel) :
    ∃ r, Client.Fetch digest st peer want fuel = some r ∧
      r.exit = .fatal ∧
      r.store.disk =
        (if (st.disk.lookup (digest (full.flatten ++ last))).isSome then st.disk
         else st.disk ++ [(digest (full.flatten ++ last), full.flatten ++ last)]) ∧
      r.store.readPath want = st.readPath want := by
  have hne : want ≠ digest (full.flatten ++ last) := fun e => hbad e.symm
  refine ⟨_, fetch_takes digest st want peer reps full last fuel htakes hfull hlast hfuel,
    ?_, ?_, ?_⟩
  · simp [hne]
  · by_cases hs : (full.flatten ++ last).length < chunkSize
    · simp only [hs, if_true, Store.Save]
    · simp only [hs, if_false, HashWriter.Sum]
  · by_cases hs : (full.flatten ++ last).length < chunkSize
    · simp only [hs, if_true]
      exact readPath_save_other digest st _ want hne
    · simp only [hs, if_false]
      exact readPath_sum_other digest st ⟨full.flatten ++ last⟩ want hne

/-- The peer that sends the one response `<true, 5, "XXXXX">` and what the client
takes from it. -/
theorem takes_xxxxx (want : Digest) :
    Takes (replyAll [⟨true, 5, xxxxx⟩]) want chunkSize 0
      (List.replicate chunkSize 0) 0 [⟨true, 5, xxxxx⟩] ([] ++ [xxxxx]) := by
  simp only [List.nil_append, Takes]
  exact ⟨by simp [replyAll], trivial, sliceTo_decodeChunk _ xxxxx, trivial⟩

/-- C5 (witness): the peer answers the fetch of the digest of `"hello"` with the
single response `<true, 5, "XXXXX">`. -/
theorem fetch_corrupt_saves_received_bytes_witness :
    Takes (replyAll [⟨true, 5, xxxxx⟩]) (idDigest hello) chunkSize 0
        (List.replicate chunkSize 0) 0 [⟨true, 5, xxxxx⟩] ([] ++ [xxxxx]) ∧
      (∀ c ∈ ([] : List Bytes), chunkSize ≤ c.length) ∧ xxxxx.length < chunkSize ∧
      idDigest (([] : List Bytes).flatten ++ xxxxx) ≠ idDigest hello ∧
      ∃ r, Client.Fetch idDigest freshStore (replyAll [⟨true, 5, xxxxx⟩]) (idDigest hello) 1 =
          some r ∧
        r.exit = .fatal ∧
        r.store.disk =
          (if (freshStore.disk.lookup (idDigest (([] : List Bytes).flatten ++ xxxxx))).isSome
           then freshStore.disk
           else freshStore.disk ++
             [(idDigest (([] : List Bytes).flatten ++ xxxxx),
               ([] : List Bytes).flatten ++ xxxxx)]) ∧
        r.store.readPath (idDigest hello) = freshStore.readPath (idDigest hello) :=
  ⟨takes_xxxxx _, by simp, by decide, by decide,
    fetch_corrupt_saves_received_bytes idDigest freshStore (idDigest hello)
      (replyAll [⟨true, 5, xxxxx⟩]) [⟨true, 5, xxxxx⟩] [] xxxxx 1
      (takes_xxxxx _) (by simp) (by decide) (by decide) (by decide)⟩

/-- C7: a store that lacks the digest answers `ServeChunk` with `Have = false`, a
nil error and every other field of the response as it was. On the client side,
whenever a response of the peer has `Have = false`, after any number of responses
that carried full chunks, the fetch, given fuel for one request per response,
returns `(false, nil)`; that request is its last one, and the client's store is as
it was before the fetch. The same holds of every run that has a result, whatever
the peer does. Against the server of a store that lacks the digest the fetch
returns `(false, nil)` after its first request. -/
theorem not_present_on_both_sides (digest : Bytes → Digest) (server client : Store)
    (req : Request) (rep : Response) (peer : Peer) (want : Digest) (reps : List Response)
    (full : List Bytes) (rep' : Response) (fuel : Nat)
    (habsent : server.HasHash req.Hash = false)
    (htakes : Takes peer want chunkSize 0 (List.replicate chunkSize 0) 0 reps full)
    (hfull : ∀ c ∈ full, chunkSize ≤ c.length)
    (hrep : peer full.length
      (reqAt want chunkSize ((full.flatten.length : Nat) : Int)) = .reply rep')
    (hhave : rep'.Have = false) (hfuel : full.length < fuel) :
    server.ServeChunk req rep = .done req { rep with Have := false } none ∧
      Client.Fetch digest client peer want fuel =
        some ⟨.returned false none, client,
          requestsFor want chunkSize 0 full ++
            [reqAt want chunkSize ((full.flatten.length : Nat) : Int)]⟩ ∧
      (∀ (peer' : Peer) (n : Nat) (r : FetchResult) (i : Nat) (rq : Request) (rp : Response),
        Client.Fetch digest client peer' want n = some r →
        r.requests.get? i = some rq → peer' i rq = .reply rp → rp.Have = false →
        i + 1 = r.requests.length ∧ r.exit = .returned false none ∧ r.store = client) ∧
      (∀ n, Client.Fetch digest client (servePeer server) req.Hash (n + 1) =
        some ⟨.returned false none, client, [reqAt req.Hash chunkSize 0]⟩) := by
  refine ⟨?_, ?_, ?_, ?_⟩
  · simp [Store.ServeChunk, habsent]
  · have h := fetchLoop_stops digest peer want chunkSize rep' hhave full reps fuel client
      (List.replicate chunkSize 0) none 0 0 hfull htakes
      (by simpa using hrep) hfuel
    simpa [Client.Fetch] using h
  · intro peer' n r i rq rp hrun hreq hp hh
    have hp' : peer' (0 + i) rq = .reply rp := by rw [Nat.zero_add]; exact hp
    exact fetchLoop_not_present digest peer' want chunkSize n client _ none 0 0 r hrun i
      rq rp hreq hp' hh
  · intro n
    have hp : ∀ rq : Request, rq.Hash = req.Hash →
        servePeer server 0 rq = .reply ⟨false, 0, []⟩ := by
      intro rq h
      simp [servePeer, Store.ServeChunk, h, habsent, Response.zero]
    simp only [Client.Fetch, fetchLoop]
    rw [hp ⟨req.Hash, 0, 0 + (chunkSize : Int)⟩ rfl]
    simp [reqAt]

/-- The peer that sends a full chunk of zero bytes and then `Have = false`, and what
the client takes from its first response. -/
theorem takes_zeros_then_absent (want : Digest) :
    Takes (replyAll [⟨true, 262144, zeros 262144⟩, ⟨false, 0, []⟩]) want chunkSize 0
      (List.replicate chunkSize 0) 0 [⟨true, 262144, zeros 262144⟩] [zeros 262144] := by
  have hslice : sliceTo (decodeChunk (List.replicate chunkSize 0) (zeros 262144))
      (262144 : Int) = some (zeros 262144) := by
    have h := sliceTo_decodeChunk (List.replicate chunkSize 0) (zeros 262144)
    rw [length_zeros] at h
    exact h
  simp only [Takes]
  exact ⟨by simp [replyAll], trivial, hslice, trivial⟩

/-- C7 (witness): the fetch of the digest of `"hello"` from a peer that sends one
full chunk of 262144 zero bytes and then answers `Have = false`; the serving store
is empty. -/
theorem not_present_on_both_sides_witness :
    freshStore.HasHash (idDigest hello) = false ∧
      Takes (replyAll [⟨true, 262144, zeros 262144⟩, ⟨false, 0, []⟩]) (idDigest hello)
        chunkSize 0 (List.replicate chunkSize 0) 0 [⟨true, 262144, zeros 262144⟩]
        [zeros 262144] ∧
      (freshStore.ServeChunk ⟨idDigest hello, 0, 262144⟩ Response.zero =
          .done ⟨idDigest hello, 0, 262144⟩ { Response.zero with Have := false } none ∧
        Client.Fetch idDigest freshStore
            (replyAll [⟨true, 262144, zeros 262144⟩, ⟨false, 0, []⟩]) (idDigest hello) 2 =
          some ⟨.returned false none, freshStore,
            requestsFor (idDigest hello) chunkSize 0 [zeros 262144] ++
              [reqAt (idDigest hello) chunkSize
                ((([zeros 262144] : List Bytes).flatten.length : Nat) : Int)]⟩) :=
  ⟨by decide, takes_zeros_then_absent _,
    (not_present_on_both_sides idDigest freshStore freshStore ⟨idDigest hello, 0, 262144⟩
      Response.zero (replyAll [⟨true, 262144, zeros 262144⟩, ⟨false, 0, []⟩])
      (idDigest hello) [⟨true, 262144, zeros 262144⟩] [zeros 262144] ⟨false, 0, []⟩ 2
      (by decide) (takes_zeros_then_absent _)
      (by simp [length_zeros, chunkSize_eq]) (by simp [replyAll]) rfl (by simp)).1,
    (not_present_on_both_sides idDigest freshStore freshStore ⟨idDigest hello, 0, 262144⟩
      Response.zero (replyAll [⟨true, 262144, zeros 262144⟩, ⟨false, 0, []⟩])
      (idDigest hello) [⟨true, 262144, zeros 262144⟩] [zeros 262144] ⟨false, 0, []⟩ 2
      (by decide) (takes_zeros_then_absent _)
      (by simp [length_zeros, chunkSize_eq]) (by simp [replyAll]) rfl (by simp)).2.1⟩

/-! ## Properties of `RpcFs.FetchHashOnce` -/

/-- C8 (counterexample): caller A marks the digest of `"hello"` in flight and
fetches; caller B finds it in flight and waits; A's fetch fails with
`connection closed`, A removes the marker and returns that error. When B wakes,
the digest is absent and no longer in flight, so B leaves the loop, marks the
digest in flight itself and issues its own fetch: it does not return A's error. -/
theorem waiter_refetches_after_failed_fetch :
    freshFs.FetchHashOnce fileB .entry .acquire =
        some (⟨"worker", freshStore, [idDigest hello]⟩, .fetching) ∧
      (⟨"worker", freshStore, [idDigest hello]⟩ : RpcFs).FetchHashOnce fileB .entry .acquire =
        some (⟨"worker", freshStore, [idDigest hello]⟩, .waiting) ∧
      (⟨"worker", freshStore, [idDigest hello]⟩ : RpcFs).FetchHashOnce fileB .fetching
          (.fetched freshStore [] (some "connection closed")) =
        some (freshFs, .returned (some "connection closed")) ∧
      freshFs.FetchHashOnce fileB .waiting .acquire =
        some (⟨"worker", freshStore, [idDigest hello]⟩, .fetching) := by
  decide

/-- C8 (amended): a caller of `RpcFs.FetchHashOnce` that waited on the completion
signal re-checks the store when it wakes. If the digest is now present it returns
success. If the digest is absent and still marked in flight it waits again. If the
digest is absent and no longer in flight (the fetch it waited on failed), it marks
the digest in flight itself and issues its own fetch; when that fetch fails with an
error, it removes the marker and returns the error of its own fetch. -/
theorem waiter_rechecks_then_fetches (me : RpcFs) (a : FileAttr) :
    (me.cache.HasHash a.Hash = true →
        me.FetchHashOnce a .waiting .acquire = some (me, .returned none)) ∧
      (me.cache.HasHash a.Hash = false → a.Hash ∈ me.fetching →
        me.FetchHashOnce a .waiting .acquire = some (me, .waiting)) ∧
      (me.cache.HasHash a.Hash = false → a.Hash ∉ me.fetching →
        me.FetchHashOnce a .waiting .acquire =
            some ({ me with fetching := a.Hash :: me.fetching }, .fetching) ∧
          ∀ (cache : Store) (saved : Digest) (e : Error),
            ∃ me', ({ me with fetching := a.Hash :: me.fetching } : RpcFs).FetchHashOnce a
                .fetching (.fetched cache saved (some e)) = some (me', .returned (some e)) ∧
              a.Hash ∉ me'.fetching ∧ me'.cache = cache) := by
  refine ⟨?_, ?_, ?_⟩
  · intro hhas
    simp [RpcFs.FetchHashOnce, RpcFs.locked, hhas]
  · intro hhas hmem
    simp [RpcFs.FetchHashOnce, RpcFs.locked, hhas, hmem]
  · intro hhas hmem
    refine ⟨?_, ?_⟩
    · simp [RpcFs.FetchHashOnce, RpcFs.locked, hhas, hmem]
    · intro cache saved e
      refine ⟨⟨me.id, cache, (a.Hash :: me.fetching).filter (fun k => k != a.Hash)⟩,
        ?_, ?_, ?_⟩
      · simp [RpcFs.FetchHashOnce, RpcFs.fetchReturned]
      · simp [List.mem_filter]
      · rfl

/-- C8 (witness): the three cases at concrete states: the digest of `"hello"`
present in the cache; absent and in flight; absent and not in flight. -/
theorem waiter_rechecks_then_fetches_witness :
    ((⟨"worker", diskOnly (idDigest hello) hello, []⟩ : RpcFs).FetchHashOnce fileB
        .waiting .acquire =
        some (⟨"worker", diskOnly (idDigest hello) hello, []⟩, .returned none)) ∧
      ((⟨"worker", freshStore, [idDigest hello]⟩ : RpcFs).FetchHashOnce fileB
        .waiting .acquire = some (⟨"worker", freshStore, [idDigest hello]⟩, .waiting)) ∧
      (freshFs.FetchHashOnce fileB .waiting .acquire =
        some ({ freshFs with fetching := fileB.Hash :: freshFs.fetching }, .fetching)) :=
  ⟨(waiter_rechecks_then_fetches ⟨"worker", diskOnly (idDigest hello) hello, []⟩ fileB).1
      (by decide),
    (waiter_rechecks_then_fetches ⟨"worker", freshStore, [idDigest hello]⟩ fileB).2.1
      (by decide) (by decide),
    ((waiter_rechecks_then_fetches freshFs fileB).2.2 (by decide) (by decide)).1⟩

/-! ## Properties of `RpcFs.fetchAttr` -/

theorem foldl_wanted (n : String) :
    ∀ (l : List FileAttr) (init : Option FileAttr),
      l.foldl (fun wanted attr => if attr.Path = n then some attr else wanted) init =
        (l.reverse.find? (fun attr => decide (attr.Path = n))).or init := by
  intro l
  induction l with
  | nil => intro init; simp
  | cons x xs ih =>
    intro init
    simp only [List.foldl_cons, ih, List.reverse_cons, List.find?_append]
    by_cases hx : x.Path = n
    · cases h : List.find? (fun attr => decide (attr.Path = n)) xs.reverse <;>
        simp [hx, List.find?]
    · cases h : List.find? (fun attr => decide (attr.Path = n)) xs.reverse <;>
        simp [hx, List.find?]

/-- C9 (counterexample): the server answers `GetAttr("/a/b.txt")` with the entry
of the parent `/a` and the entry of `/a/b.txt`. `fetchAttr` returns the entry of
`/a/b.txt` alone; the entry of `/a` is in the response and not in the result. -/
theorem fetchAttr_drops_contextual_entries :
    freshFs.fetchAttr (fun _ => .ok ⟨[dirA, fileB]⟩) "/a/b.txt" = some fileB ∧
      dirA ∈ [dirA, fileB] ∧
      dirA ∉ (NewRpcFs.missCallback freshFs (fun _ => .ok ⟨[dirA, fileB]⟩) "/a/b.txt").toList := by
  decide

/-- C9 (amended): on an attribute-cache miss for path `n`, the miss callback
`RpcFs.fetchAttr` hands on at most one record of the `GetAttr` response: the last
entry of `rep.Attrs` whose `Path` equals `n`, and nothing when there is no such
entry. Every entry for another path is dropped. -/
theorem fetchAttr_returns_last_entry_for_path (me : RpcFs)
    (call : AttrRequest → Except Error AttrResponse) (n : String) (rep : AttrResponse)
    (hcall : call { Name := n, Origin := me.id } = .ok rep) :
    NewRpcFs.missCallback me call n =
        rep.Attrs.reverse.find? (fun attr => decide (attr.Path = n)) ∧
      (∀ a, NewRpcFs.missCallback me call n = some a → a ∈ rep.Attrs ∧ a.Path = n) ∧
      (∀ a ∈ rep.Attrs, a.Path ≠ n → NewRpcFs.missCallback me call n ≠ some a) := by
  have hres : NewRpcFs.missCallback me call n =
      rep.Attrs.reverse.find? (fun attr => decide (attr.Path = n)) := by
    simp [NewRpcFs.missCallback, RpcFs.fetchAttr, hcall, foldl_wanted]
  refine ⟨hres, ?_, ?_⟩
  · intro a ha
    rw [hres] at ha
    have h1 := List.find?_some ha
    have h2 := List.mem_of_find?_eq_some ha
    exact ⟨by simpa using h2, by simpa using h1⟩
  · intro a _ hne ha
    rw [hres] at ha
    have h1 := List.find?_some ha
    exact hne (by simpa using h1)

/-- C9 (witness): the response with the entries of `/a` and `/a/b.txt` to the miss
for `/a/b.txt`. -/
theorem fetchAttr_returns_last_entry_for_path_witness :
    (fun (_ : AttrRequest) => (Except.ok ⟨[dirA, fileB]⟩ : Except Error AttrResponse))
        { Name := "/a/b.txt", Origin := freshFs.id } = .ok ⟨[dirA, fileB]⟩ ∧
      (NewRpcFs.missCallback freshFs (fun _ => .ok ⟨[dirA, fileB]⟩) "/a/b.txt" =
          (AttrResponse.mk [dirA, fileB]).Attrs.reverse.find?
            (fun attr => decide (attr.Path = "/a/b.txt")) ∧
        (∀ a, NewRpcFs.missCallback freshFs (fun _ => .ok ⟨[dirA, fileB]⟩) "/a/b.txt" = some a →
          a ∈ (AttrResponse.mk [dirA, fileB]).Attrs ∧ a.Path = "/a/b.txt") ∧
        (∀ a ∈ (AttrResponse.mk [dirA, fileB]).Attrs, a.Path ≠ "/a/b.txt" →
          NewRpcFs.missCallback freshFs (fun _ => .ok ⟨[dirA, fileB]⟩) "/a/b.txt" ≠ some a)) :=
  ⟨rfl, fetchAttr_returns_last_entry_for_path freshFs (fun _ => .ok ⟨[dirA, fileB]⟩)
    "/a/b.txt" ⟨[dirA, fileB]⟩ rfl⟩

/-! ## Properties of `RpcFs.Access` -/

/-- C10 (counterexample): for a path that the attribute cache does not resolve,
`Access` with mode `R_OK` answers OK, and so it does with `X_OK` and for a path
that resolves to a deleted entry; only mode `F_OK` consults the attribute cache. -/
theorem access_read_of_missing_path_is_ok :
    RpcFs.Access (fun _ => none) "/missing" R_OK = .OK ∧
      RpcFs.Access (fun _ => none) "/missing" X_OK = .OK ∧
      RpcFs.Access (fun _ => some ⟨"/gone", none, [], "", []⟩) "/gone" R_OK = .OK ∧
      RpcFs.Access (fun _ => none) "/missing" F_OK = .ENOENT := by
  decide

/-- C10 (amended): `RpcFs.Access(path, mode)`: if `mode` includes the write bit the
result is the denial `EACCES`; if `mode` is `F_OK` the result is OK if and only if
the attribute cache resolves the path to an existing, non-deleted entry, and
`ENOENT` otherwise; for every other mode without the write bit (`R_OK`, `X_OK` and
their combination) the result is OK whether or not the entry exists. -/
theorem access_by_mode (attrGet : String → Option FileAttr) (name : String) (mode : Nat) :
    (mode &&& W_OK ≠ 0 → RpcFs.Access attrGet name mode = .EACCES) ∧
      (mode = F_OK →
        (RpcFs.Access attrGet name mode = .OK ↔
          ∃ a, attrGet name = some a ∧ a.Deletion = false) ∧
        (RpcFs.Access attrGet name mode = .OK ∨ RpcFs.Access attrGet name mode = .ENOENT)) ∧
      (mode ≠ F_OK → mode &&& W_OK = 0 → RpcFs.Access attrGet name mode = .OK) := by
  refine ⟨?_, ?_, ?_⟩
  · intro hw
    have hne : mode ≠ F_OK := by
      intro h
      rw [h] at hw
      exact hw (by decide)
    simp [RpcFs.Access, hne, hw]
  · intro hf
    subst hf
    cases hget : attrGet name with
    | none => simp [RpcFs.Access, RpcFs.GetAttr, hget]
    | some r =>
      cases hdel : r.Deletion <;>
        simp [RpcFs.Access, RpcFs.GetAttr, hget, FileAttr.Status, hdel]
  · intro hne hw
    simp [RpcFs.Access, hne, hw]

/-- C10 (witness): the three cases at concrete inputs: a mode with the write bit, the
mode `F_OK` on a path that does not resolve, and the mode `R_OK`. -/
theorem access_by_mode_witness :
    RpcFs.Access (fun _ => some fileB) "/a/b.txt" (R_OK ||| W_OK) = .EACCES ∧
      (RpcFs.Access (fun _ => none) "/missing" F_OK = .OK ↔
        ∃ a, (fun (_ : String) => (none : Option FileAttr)) "/missing" = some a ∧
          a.Deletion = false) ∧
      RpcFs.Access (fun _ => some fileB) "/a/b.txt" R_OK = .OK :=
  ⟨(access_by_mode (fun _ => some fileB) "/a/b.txt" (R_OK ||| W_OK)).1 (by decide),
    ((access_by_mode (fun _ => none) "/missing" F_OK).2.1 rfl).1,
    (access_by_mode (fun _ => some fileB) "/a/b.txt" R_OK).2.2 (by decide) (by decide)⟩

/-! ## Properties of `RpcFs.OpenDir` -/

/-- The loop never blocks while the channel has room for all the entries left, and
it buffers one entry per element of the map, in order. -/
theorem openDirLoop_buffers :
    ∀ (l : List (String × Nat)) (c : DirChan), c.closed = false →
      c.buf.length + l.length ≤ c.cap →
      openDirLoop c l =
        some { c with buf := c.buf ++ l.map (fun p => ⟨p.1, p.2 % 2 ^ 32⟩) } := by
  intro l
  induction l with
  | nil => intro c _ _; simp [openDirLoop]
  | cons p rest ih =>
    intro c hopen hroom
    obtain ⟨k, mode⟩ := p
    have hlt : c.buf.length < c.cap := by simp at hroom; omega
    have hsend : c.send { Name := k, Mode := mode % 2 ^ 32 } =
        some { c with buf := c.buf ++ [⟨k, mode % 2 ^ 32⟩] } := by
      simp [DirChan.send, hopen, hlt]
    simp only [openDirLoop, hsend]
    have h := ih ⟨c.cap, c.buf ++ [⟨k, mode % 2 ^ 32⟩], c.closed⟩ hopen
      (by simp at hroom ⊢; omega)
    rw [h]
    simp

/-- C11 (counterexample): `get_dir` yields the entry of the regular file
`/a/b.txt`. `OpenDir` fails with `EINVAL`, invalid argument, which is not the
status `ENOTDIR`. -/
theorem openDir_of_regular_file_is_einval :
    RpcFs.OpenDir (fun _ => some fileB) "/a/b.txt" = .returned none .EINVAL ∧
      fileB.Deletion = false ∧
      Status.EINVAL ≠ Status.ENOTDIR := by
  decide

/-- C11 (amended): `RpcFs.OpenDir(path)`: for every entry returned by `get_dir`, if
the entry is a deletion the call fails with not-found (`ENOENT`); if it is not a
directory the call fails with invalid-argument (`EINVAL`); otherwise it returns OK
and a closed channel that holds exactly one `(name, mode)` pair for each element of
the entry's children map and nothing else: as many pairs as children, each with the
child's name and its mode as a `uint32`, which is the child's mode for every mode
below `2^32`. -/
theorem openDir_by_entry (attrGetDir : String → Option FileAttr) (name : String)
    (r : FileAttr) (hget : attrGetDir name = some r) :
    (r.Deletion = true → RpcFs.OpenDir attrGetDir name = .returned none .ENOENT) ∧
      (∀ fi, r.FileInfo = some fi → fi.IsDirectory = false →
        RpcFs.OpenDir attrGetDir name = .returned none .EINVAL) ∧
      (∀ fi, r.FileInfo = some fi → fi.IsDirectory = true →
        ∃ c, RpcFs.OpenDir attrGetDir name = .returned (some c) .OK ∧
          c.closed = true ∧
          c.buf = r.NameModeMap.map (fun p => ⟨p.1, p.2 % 2 ^ 32⟩) ∧
          c.buf.length = r.NameModeMap.length ∧
          ((∀ p ∈ r.NameModeMap, p.2 < 2 ^ 32) →
            c.buf = r.NameModeMap.map (fun p => ⟨p.1, p.2⟩))) := by
  refine ⟨?_, ?_, ?_⟩
  · intro hdel
    simp [RpcFs.OpenDir, hget, hdel]
  · intro fi hfi hdir
    have hdel : r.Deletion = false := by simp [FileAttr.Deletion, hfi]
    simp [RpcFs.OpenDir, hget, hdel, hfi, hdir]
  · intro fi hfi hdir
    have hdel : r.Deletion = false := by simp [FileAttr.Deletion, hfi]
    have hloop := openDirLoop_buffers r.NameModeMap ⟨r.NameModeMap.length, [], false⟩ rfl
      (by simp)
    refine ⟨⟨r.NameModeMap.length, r.NameModeMap.map (fun p => ⟨p.1, p.2 % 2 ^ 32⟩), true⟩,
      ?_, rfl, rfl, by simp, ?_⟩
    · simp [RpcFs.OpenDir, hget, hdel, hfi, hdir, hloop]
    · intro hsmall
      apply List.map_congr_left
      intro p hp
      rw [Nat.mod_eq_of_lt (hsmall p hp)]

/-- C11 (witness): `get_dir` yields the directory `/a` with the one child `b.txt`. -/
theorem openDir_by_entry_witness :
    (fun (_ : String) => some dirA) "/a" = some dirA ∧
      ∃ c, RpcFs.OpenDir (fun _ => some dirA) "/a" = .returned (some c) .OK ∧
        c.closed = true ∧
        c.buf = dirA.NameModeMap.map (fun p => ⟨p.1, p.2 % 2 ^ 32⟩) ∧
        c.buf.length = dirA.NameModeMap.length ∧
        ((∀ p ∈ dirA.NameModeMap, p.2 < 2 ^ 32) →
          c.buf = dirA.NameModeMap.map (fun p => ⟨p.1, p.2⟩)) :=
  ⟨rfl, (openDir_by_entry (fun _ => some dirA) "/a" dirA rfl).2.2 ⟨0o40755, 4096⟩ rfl
    (by decide)⟩

/-! ## Properties of `WorkerTask.fillReply` -/

/-- A run of `fillReply` on the overlay of a job that wrote `/wd/output.txt` and
deleted nothing: no error, the written file is reported with its digest and
removed from the overlay, and the directory `DELETIONS` is not reported. -/
theorem fillReply_without_markers :
    WorkerTask.fillReply idDigest ⟨"/tmp/rw", [], freshStore, overlayAfterTee⟩ =
      .returned none
        ⟨"/tmp/rw",
          [⟨⟨0o40700, 4096⟩, false, "", [], ""⟩,
           ⟨⟨0o40755, 4096⟩, false, "/wd", [], ""⟩,
           ⟨⟨0o100644, 5⟩, false, "/wd/output.txt", idDigest hello, ""⟩],
          ⟨1024, 4096, [], [(idDigest hello, hello)]⟩,
          [⟨"/tmp/rw", ⟨0o40700, 4096⟩, [], ""⟩,
           ⟨"/tmp/rw/DELETIONS", ⟨0o40700, 4096⟩, [], ""⟩,
           ⟨"/tmp/rw/wd", ⟨0o40755, 4096⟩, [], ""⟩]⟩ := by
  decide

/-- Whatever the overlay holds, when the directory `DELETIONS` exists and reading
`filepath.Join(dir, m)` fails for the first glob match `m`, `fillReply` returns that
error and leaves the reply as it was. -/
theorem fillReply_returns_first_read_error (digest : Bytes → Digest) (me : WorkerTask)
    (d : FsEntry) (m : String) (rest : List String) (err : Error)
    (hdir : me.fs.lstat (filepathJoin [me.rwDir, _DELETIONS]) = some d)
    (hglob : me.fs.globStar (filepathJoin [me.rwDir, _DELETIONS]) = m :: rest)
    (hread : me.fs.readFile (filepathJoin [filepathJoin [me.rwDir, _DELETIONS], m]) =
      .error err) :
    me.fillReply digest = .returned (some err) me := by
  simp [WorkerTask.fillReply, hdir, hglob, WorkerTask.deletionLoop, hread]

/-- C12 (code defect): on the overlay of a job that ran `rm output.txt`, whose
directory `DELETIONS` holds one marker file with the contents `/wd/output.txt`,
`fillReply` returns an error and appends nothing to the reply. The glob match `m`
is already the full path of the marker, `/tmp/rw/DELETIONS/0a1b`; the file read is
`filepath.Join(dir, m)`, that is `/tmp/rw/DELETIONS/tmp/rw/DELETIONS/0a1b`, which
does not exist, while `m` itself is readable and holds the deleted path. -/
theorem fillReply_fails_on_deletion_marker :
    WorkerTask.fillReply idDigest ⟨"/tmp/rw", [], freshStore, overlayAfterRm⟩ =
        .returned
          (some "open /tmp/rw/DELETIONS/tmp/rw/DELETIONS/0a1b: no such file or directory")
          ⟨"/tmp/rw", [], freshStore, overlayAfterRm⟩ ∧
      overlayAfterRm.globStar "/tmp/rw/DELETIONS" = ["/tmp/rw/DELETIONS/0a1b"] ∧
      filepathJoin ["/tmp/rw/DELETIONS", "/tmp/rw/DELETIONS/0a1b"] =
        "/tmp/rw/DELETIONS/tmp/rw/DELETIONS/0a1b" ∧
      (overlayAfterRm.readFile "/tmp/rw/DELETIONS/0a1b").toOption.map goString =
        some "/wd/output.txt" := by
  decide

end Termite
